/-
Verification of the boat_game multiplayer server core (src/api/app.py and
src/api/firestore_models.py) against its natural-language specification.

The Python source is shallowly embedded: dictionaries become structures or
association lists, `time.time()` / coordinates become rationals, Python
exceptions become `Except` / explicit `raised` flags, Firestore calls become
an explicit write log, and Socket.IO `emit` calls become an explicit emit
log.  Regular-expression substitutions are embedded as the equivalent
left-to-right scanning functions on `List Char` (the scan semantics of
`re.sub` for these particular patterns).
-/
import Mathlib

namespace BoatGame

/- Batteries seals the rational-number operations `@[irreducible]`; reopen
them (locally to this namespace) so that concrete witness states evaluate
by `decide`. -/
attribute [local semireducible] Rat.sub Rat.add Rat.mul Rat.inv

/-! ### Character-level embedding of `sanitize_player_name` (app.py:590-624)

`sanitize_player_name` applies, in order:
1. `re.sub(r'<[^>]*>', '', name)`          — remove HTML tags;
2. `re.sub(r'&[^;]+;', '', ...)`           — remove HTML entities;
3. `.replace` of each of `\` `/` `"` `'`   — remove four characters;
4. `re.sub(r'\[(.*?)\]', sanitize_clan_tags, ...)` — clean clan-tag interiors;
5. `.strip()`                              — trim surrounding whitespace.

Each `re.sub` is embedded as the scanning function it denotes: `re.sub` scans
left to right, and at each position either consumes a (leftmost, and for these
patterns uniquely determined) match or keeps one character and advances. -/

/-- Drop elements up to and including the first occurrence of `c`; if `c`
does not occur, everything is dropped (only called when `c` is present). -/
def dropThrough (c : Char) : List Char → List Char
  | [] => []
  | a :: t => if a = c then t else dropThrough c t

theorem dropThrough_length_le (c : Char) : ∀ l : List Char, (dropThrough c l).length ≤ l.length
  | [] => le_refl _
  | a :: t => by
    by_cases h : a = c
    · simp [dropThrough, h]
    · simp only [dropThrough, if_neg h]
      exact le_trans (dropThrough_length_le c t) (Nat.le_succ _)

theorem dropThrough_sublist (c : Char) : ∀ l : List Char, List.Sublist (dropThrough c l) l
  | [] => List.Sublist.refl _
  | a :: t => by
    by_cases h : a = c
    · simp only [dropThrough, if_pos h]
      exact List.sublist_cons_self a t
    · simp only [dropThrough, if_neg h]
      exact (dropThrough_sublist c t).trans (List.sublist_cons_self a t)

/-- Embedding of `re.sub(r'<[^>]*>', '', s)`: at a `<` that is followed by
some `>`, the leftmost match consumes through the first `>`; otherwise the
character is kept. -/
def removeTags : List Char → List Char
  | [] => []
  | c :: t =>
    if h : c = '<' ∧ '>' ∈ t then removeTags (dropThrough '>' t)
    else c :: removeTags t
termination_by l => l.length
decreasing_by
  · exact Nat.lt_succ_of_le (dropThrough_length_le '>' t)
  · exact Nat.lt_succ_of_le (le_refl _)

/-- Embedding of `re.sub(r'&[^;]+;', '', s)`: at a `&` whose next character
is not `;` but with some later `;`, the leftmost match consumes through the
first `;`; otherwise the character is kept. -/
def removeEntities : List Char → List Char
  | [] => []
  | c :: t =>
    if h : c = '&' ∧ ';' ∈ t ∧ t.head? ≠ some ';' then removeEntities (dropThrough ';' t)
    else c :: removeEntities t
termination_by l => l.length
decreasing_by
  · exact Nat.lt_succ_of_le (dropThrough_length_le ';' t)
  · exact Nat.lt_succ_of_le (le_refl _)

/-- The four literal characters removed by the successive
`sanitized.replace(x, '')` calls: backslash, slash, double quote, apostrophe. -/
def quoteChars : List Char := ['\\', '/', '\x22', '\x27']

/-- Embedding of the four successive `.replace(x, '')` calls, which compose
to deleting every occurrence of the four characters. -/
def removeQuotes (l : List Char) : List Char := l.filter (fun c => decide (c ∉ quoteChars))

/-- Characters removed from clan-tag interiors by
`re.sub(r'[<>&\\/\'"]', '', clan_content)`. -/
def clanBadChars : List Char := ['<', '>', '&', '\\', '/', '\x27', '\x22']

/-- Keep-predicate for clan-tag interiors. -/
def keepClan (c : Char) : Bool := decide (c ∉ clanBadChars)

/-- Scan for the content of a `\[(.*?)\]` match: returns
`some (content, after)` when a `]` occurs before any newline (`.` does not
match `\n`), where `content` is everything before that first `]` and `after`
everything after it; `none` otherwise. -/
def spanToBracket : List Char → Option (List Char × List Char)
  | [] => none
  | c :: t =>
    if c = ']' then some ([], t)
    else if c = '\n' then none
    else match spanToBracket t with
      | some (content, after) => some (c :: content, after)
      | none => none

theorem spanToBracket_eq :
    ∀ {l content after : List Char}, spanToBracket l = some (content, after) →
      l = content ++ ']' :: after ∧ ']' ∉ content ∧ '\n' ∉ content := by
  intro l
  induction l with
  | nil => intro content after h; simp [spanToBracket] at h
  | cons c t ih =>
    intro content after h
    by_cases hc : c = ']'
    · simp only [spanToBracket, if_pos hc] at h
      obtain ⟨h1, h2⟩ := Prod.mk.injEq .. ▸ Option.some.injEq .. ▸ h
      subst hc
      cases h1
      cases h2
      simp
    · by_cases hn : c = '\n'
      · simp [spanToBracket, if_neg hc, if_pos hn] at h
      · simp only [spanToBracket, if_neg hc, if_neg hn] at h
        cases hsp : spanToBracket t with
        | none => rw [hsp] at h; simp at h
        | some p =>
          obtain ⟨content0, after0⟩ := p
          rw [hsp] at h
          simp only [Option.some.injEq, Prod.mk.injEq] at h
          obtain ⟨h1, h2⟩ := h
          obtain ⟨ht, hnb, hnn⟩ := ih hsp
          subst h2
          rw [← h1]
          constructor
          · simp [ht]
          · constructor
            · simp only [List.mem_cons, not_or]
              exact ⟨fun hh => hc hh.symm, hnb⟩
            · simp only [List.mem_cons, not_or]
              exact ⟨fun hh => hn hh.symm, hnn⟩

theorem spanToBracket_length {l content after : List Char}
    (h : spanToBracket l = some (content, after)) : after.length < l.length := by
  obtain ⟨hl, -, -⟩ := spanToBracket_eq h
  subst hl
  simp only [List.length_append, List.length_cons]
  omega

/-- Embedding of `re.sub(r'\[(.*?)\]', sanitize_clan_tags, s)`: at a `[`
with a closing `]` before any newline, the interior is filtered through
`keepClan` and the brackets kept; otherwise the character is kept. -/
def clanPass : List Char → List Char
  | [] => []
  | c :: t =>
    if c = '[' then
      match hsp : spanToBracket t with
      | some (content, after) => '[' :: (content.filter keepClan ++ ']' :: clanPass after)
      | none => c :: clanPass t
    else c :: clanPass t
termination_by l => l.length
decreasing_by
  · exact Nat.lt_succ_of_le (le_of_lt (spanToBracket_length hsp))
  · exact Nat.lt_succ_of_le (le_refl _)
  · exact Nat.lt_succ_of_le (le_refl _)

/-- Whitespace stripped by Python `str.strip()` (the six ASCII whitespace
characters; exotic Unicode whitespace is not modelled). -/
def pySpace (c : Char) : Bool :=
  c == ' ' || c == '\t' || c == '\n' || c == '\r' || c == '\x0b' || c == '\x0c'

/-- Left half of `str.strip()`. -/
def trimLeft (l : List Char) : List Char := l.dropWhile pySpace

/-- Right half of `str.strip()`. -/
def trimRight (l : List Char) : List Char := (l.reverse.dropWhile pySpace).reverse

/-- Embedding of `str.strip()`. -/
def pyStrip (l : List Char) : List Char := trimRight (trimLeft l)

/-- List-level embedding of `sanitize_player_name` (app.py:590-624). -/
def sanitizeL (l : List Char) : List Char :=
  pyStrip (clanPass (removeQuotes (removeEntities (removeTags l))))

/-- Embedding of `sanitize_player_name` on strings (the `name is None` guard
of the Python code is outside the string-to-string function modelled here). -/
def sanitize_player_name (s : String) : String := String.mk (sanitizeL s.data)

/-! ### Invariants of the sanitizer passes

`noTag l`: no `<` is followed (anywhere later) by a `>`, i.e. `<[^>]*>` has
no match.  `noEnt l`: every `&` either is immediately followed by `;` or has
no later `;`, i.e. `&[^;]+;` has no match.  `noQuote l`: none of the four
replaced characters occurs. -/

def noTag : List Char → Prop
  | [] => True
  | c :: t => (c = '<' → '>' ∉ t) ∧ noTag t

def noEnt : List Char → Prop
  | [] => True
  | c :: t => (c = '&' → t.head? = some ';' ∨ ';' ∉ t) ∧ noEnt t

def noQuote (l : List Char) : Prop := ∀ c ∈ l, c ∉ quoteChars

theorem noTag_sublist {l1 l2 : List Char} (h : List.Sublist l1 l2) : noTag l2 → noTag l1 := by
  induction h with
  | slnil => exact fun h => h
  | cons a _ ih => exact fun h2 => ih h2.2
  | @cons₂ t1 t2 a h ih =>
    exact fun h2 => ⟨fun hc hm => h2.1 hc (h.subset hm), ih h2.2⟩

theorem noEnt_append_right : ∀ a b : List Char, noEnt (a ++ b) → noEnt b := by
  intro a
  induction a with
  | nil => exact fun b h => h
  | cons c t ih => exact fun b h => ih b h.2

theorem noEnt_append_left : ∀ a b : List Char, noEnt (a ++ b) → noEnt a := by
  intro a
  induction a with
  | nil => exact fun b _ => trivial
  | cons c t ih =>
    intro b h
    refine ⟨fun hc => ?_, ih b h.2⟩
    rcases h.1 hc with h1 | h1
    · cases t with
      | nil => exact Or.inr (by simp)
      | cons d t2 => exact Or.inl (by simpa using h1)
    · exact Or.inr fun hm => h1 (by simp [hm])

theorem noEnt_of_noAmp_append :
    ∀ a b : List Char, (∀ c ∈ a, c ≠ '&') → noEnt b → noEnt (a ++ b) := by
  intro a
  induction a with
  | nil => exact fun b _ h => h
  | cons c t ih =>
    intro b ha hb
    exact ⟨fun hc => absurd hc (ha c (by simp)), ih b (fun d hd => ha d (by simp [hd])) hb⟩

theorem noEnt_filter (p : Char → Bool) (hp : p ';' = true) :
    ∀ l : List Char, noEnt l → noEnt (l.filter p) := by
  intro l
  induction l with
  | nil => exact fun h => h
  | cons c t ih =>
    intro h
    by_cases hc : p c = true
    · rw [List.filter_cons_of_pos hc]
      refine ⟨fun hamp => ?_, ih h.2⟩
      rcases h.1 hamp with h1 | h1
      · cases t with
        | nil => simp at h1
        | cons d t2 =>
          have hd : d = ';' := by simpa using h1
          subst hd
          rw [List.filter_cons_of_pos hp]
          exact Or.inl rfl
      · exact Or.inr fun hm => h1 ((List.filter_sublist t).subset hm)
    · rw [List.filter_cons_of_neg (by simpa using hc)]
      exact ih h.2

/-! Facts about `removeTags`. -/

theorem removeTags_sublist : ∀ l : List Char, List.Sublist (removeTags l) l := by
  intro l
  induction l using removeTags.induct with
  | case1 => simp [removeTags]
  | case2 c t h ih =>
    rw [removeTags, dif_pos h]
    exact (ih.trans (dropThrough_sublist '>' t)).trans (List.sublist_cons_self c t)
  | case3 c t h ih =>
    rw [removeTags, dif_neg h]
    exact ih.cons₂ c

theorem noTag_removeTags : ∀ l : List Char, noTag (removeTags l) := by
  intro l
  induction l using removeTags.induct with
  | case1 => simp [removeTags, noTag]
  | case2 c t h ih => rw [removeTags, dif_pos h]; exact ih
  | case3 c t h ih =>
    rw [removeTags, dif_neg h]
    refine ⟨fun hc => fun hm => ?_, ih⟩
    exact h ⟨hc, (removeTags_sublist t).subset hm⟩

theorem removeTags_eq_self : ∀ l : List Char, noTag l → removeTags l = l := by
  intro l
  induction l using removeTags.induct with
  | case1 => intro _; simp [removeTags]
  | case2 c t h ih => intro hnt; exact absurd h.2 (hnt.1 h.1)
  | case3 c t h ih => intro hnt; rw [removeTags, dif_neg h, ih hnt.2]

/-! Facts about `removeEntities`. -/

theorem removeEntities_sublist : ∀ l : List Char, List.Sublist (removeEntities l) l := by
  intro l
  induction l using removeEntities.induct with
  | case1 => simp [removeEntities]
  | case2 c t h ih =>
    rw [removeEntities, dif_pos h]
    exact (ih.trans (dropThrough_sublist ';' t)).trans (List.sublist_cons_self c t)
  | case3 c t h ih =>
    rw [removeEntities, dif_neg h]
    exact ih.cons₂ c

theorem noEnt_removeEntities : ∀ l : List Char, noEnt (removeEntities l) := by
  intro l
  induction l using removeEntities.induct with
  | case1 => simp [removeEntities, noEnt]
  | case2 c t h ih => rw [removeEntities, dif_pos h]; exact ih
  | case3 c t h ih =>
    rw [removeEntities, dif_neg h]
    refine ⟨fun hc => ?_, ih⟩
    subst hc
    by_cases hm : ';' ∈ t
    · have hh : t.head? = some ';' := by
        by_contra hne
        exact h ⟨rfl, hm, hne⟩
      cases t with
      | nil => simp at hm
      | cons d t2 =>
        have hd : d = ';' := by simpa using hh
        subst hd
        rw [removeEntities]
        rw [dif_neg (by simp)]
        exact Or.inl rfl
    · exact Or.inr fun hmem => hm ((removeEntities_sublist t).subset hmem)

theorem removeEntities_eq_self : ∀ l : List Char, noEnt l → removeEntities l = l := by
  intro l
  induction l using removeEntities.induct with
  | case1 => intro _; simp [removeEntities]
  | case2 c t h ih =>
    intro hne
    obtain ⟨hc, hm, hh⟩ := h
    rcases hne.1 hc with h1 | h1
    · exact absurd h1 hh
    · exact absurd hm h1
  | case3 c t h ih => intro hne; rw [removeEntities, dif_neg h, ih hne.2]

/-! Facts about `removeQuotes`. -/

theorem noQuote_removeQuotes (l : List Char) : noQuote (removeQuotes l) := by
  intro c hc
  have := List.of_mem_filter hc
  simpa using this

theorem removeQuotes_eq_self (l : List Char) (h : noQuote l) : removeQuotes l = l :=
  List.filter_eq_self.mpr fun c hc => by simpa using h c hc

theorem noQuote_sublist {l1 l2 : List Char} (h : List.Sublist l1 l2) :
    noQuote l2 → noQuote l1 :=
  fun h2 c hc => h2 c (h.subset hc)

/-! Facts about `clanPass`. -/

theorem clanPass_nil : clanPass [] = [] := by simp [clanPass]

theorem clanPass_cons_some {t content after : List Char}
    (h : spanToBracket t = some (content, after)) :
    clanPass ('[' :: t) = '[' :: (content.filter keepClan ++ ']' :: clanPass after) := by
  rw [clanPass, if_pos rfl]
  split
  · next content2 after2 heq =>
    rw [h] at heq
    injection heq with h2
    injection h2 with h3 h4
    rw [h3, h4]
  · next heq =>
    rw [h] at heq
    exact absurd heq (by simp)

theorem clanPass_cons_none {t : List Char} (h : spanToBracket t = none) :
    clanPass ('[' :: t) = '[' :: clanPass t := by
  rw [clanPass, if_pos rfl]
  split
  · next content2 after2 heq => rw [h] at heq; exact absurd heq (by simp)
  · rfl

theorem clanPass_cons_ne {c : Char} (t : List Char) (h : c ≠ '[') :
    clanPass (c :: t) = c :: clanPass t := by
  rw [clanPass, if_neg h]

theorem spanToBracket_clean :
    ∀ {content : List Char}, ']' ∉ content → '\n' ∉ content →
      ∀ after : List Char, spanToBracket (content ++ ']' :: after) = some (content, after) := by
  intro content
  induction content with
  | nil => intro _ _ after; simp [spanToBracket]
  | cons c t ih =>
    intro hb hn after
    have hc1 : c ≠ ']' := fun hh => hb (by simp [hh])
    have hc2 : c ≠ '\n' := fun hh => hn (by simp [hh])
    simp only [List.cons_append, spanToBracket, if_neg hc1, if_neg hc2, List.append_eq]
    rw [ih (fun hh => hb (by simp [hh])) (fun hh => hn (by simp [hh])) after]

theorem spanToBracket_none_of_no_rb : ∀ {l : List Char}, ']' ∉ l → spanToBracket l = none := by
  intro l
  induction l with
  | nil => intro _; rfl
  | cons c t ih =>
    intro h
    have hc : c ≠ ']' := fun hh => h (by simp [hh])
    by_cases hn : c = '\n'
    · simp [spanToBracket, if_neg hc, hn]
    · simp only [spanToBracket, if_neg hc, if_neg hn]
      rw [ih (fun hh => h (by simp [hh]))]

theorem spanToBracket_append_none {w : List Char} (hw : ']' ∉ w) :
    ∀ {t : List Char}, spanToBracket t = none → spanToBracket (t ++ w) = none := by
  intro t
  induction t with
  | nil => intro _; exact spanToBracket_none_of_no_rb hw
  | cons c t2 ih =>
    intro h
    by_cases hc : c = ']'
    · rw [spanToBracket, if_pos hc] at h; simp at h
    · by_cases hn : c = '\n'
      · simp [spanToBracket, if_neg hc, hn]
      · rw [spanToBracket, if_neg hc, if_neg hn] at h
        simp only [List.cons_append, spanToBracket, if_neg hc, if_neg hn, List.append_eq]
        cases hsp : spanToBracket t2 with
        | none => rw [ih hsp]
        | some p => rw [hsp] at h; simp at h

theorem spanToBracket_append_some {w : List Char} :
    ∀ {t content after : List Char}, spanToBracket t = some (content, after) →
      spanToBracket (t ++ w) = some (content, after ++ w) := by
  intro t
  induction t with
  | nil => intro content after h; simp [spanToBracket] at h
  | cons c t2 ih =>
    intro content after h
    by_cases hc : c = ']'
    · rw [spanToBracket, if_pos hc] at h
      simp only [Option.some.injEq, Prod.mk.injEq] at h
      obtain ⟨h1, h2⟩ := h
      subst hc
      subst h1
      subst h2
      simp [spanToBracket]
    · by_cases hn : c = '\n'
      · rw [spanToBracket, if_neg hc, if_pos hn] at h; simp at h
      · rw [spanToBracket, if_neg hc, if_neg hn] at h
        simp only [List.cons_append, spanToBracket, if_neg hc, if_neg hn, List.append_eq]
        cases hsp : spanToBracket t2 with
        | none => rw [hsp] at h; simp at h
        | some p =>
          obtain ⟨content0, after0⟩ := p
          rw [hsp] at h
          simp only [Option.some.injEq, Prod.mk.injEq] at h
          obtain ⟨h1, h2⟩ := h
          rw [ih hsp, ← h1, ← h2]

theorem clanPass_sublist : ∀ l : List Char, List.Sublist (clanPass l) l := by
  intro l
  induction l using clanPass.induct with
  | case1 => simp [clanPass_nil]
  | case2 t content after hsp ih =>
    rw [clanPass_cons_some hsp]
    obtain ⟨ht, -, -⟩ := spanToBracket_eq hsp
    rw [ht]
    exact List.Sublist.cons₂ '[' ((content.filter_sublist).append (ih.cons₂ ']'))
  | case3 t hsp ih =>
    rw [clanPass_cons_none hsp]
    exact ih.cons₂ '['
  | case4 c t hc ih =>
    rw [clanPass_cons_ne t hc]
    exact ih.cons₂ c

theorem noEnt_clanPass : ∀ l : List Char, noEnt l → noEnt (clanPass l) := by
  intro l
  induction l using clanPass.induct with
  | case1 => intro h; rw [clanPass_nil]; exact h
  | case2 t content after hsp ih =>
    intro h
    rw [clanPass_cons_some hsp]
    obtain ⟨ht, -, -⟩ := spanToBracket_eq hsp
    have hafter : noEnt after := by
      have h2 : noEnt t := h.2
      rw [ht] at h2
      exact noEnt_append_right (content ++ [']']) after (by simpa using h2)
    have hshape : ('[' :: (content.filter keepClan ++ ']' :: clanPass after)) =
        ('[' :: content.filter keepClan ++ [']']) ++ clanPass after := by simp
    rw [hshape]
    refine noEnt_of_noAmp_append _ _ (fun c hc => ?_) (ih hafter)
    rcases List.mem_append.mp hc with hc1 | hc1
    · rcases List.mem_cons.mp hc1 with hc2 | hc2
      · rw [hc2]; decide
      · have := List.of_mem_filter hc2
        simp only [keepClan, clanBadChars, decide_eq_true_eq] at this
        intro hq
        exact this (by rw [hq]; simp)
    · have : c = ']' := by simpa using hc1
      rw [this]; decide
  | case3 t hsp ih =>
    intro h
    rw [clanPass_cons_none hsp]
    exact ⟨fun hc => absurd hc (by decide), ih h.2⟩
  | case4 c t hc ih =>
    intro h
    rw [clanPass_cons_ne t hc]
    refine ⟨fun hamp => ?_, ih h.2⟩
    rcases h.1 hamp with h1 | h1
    · cases t with
      | nil => simp at h1
      | cons d t2 =>
        have hd : d = ';' := by simpa using h1
        subst hd
        rw [clanPass_cons_ne t2 (by decide)]
        exact Or.inl rfl
    · exact Or.inr fun hm => h1 ((clanPass_sublist t).subset hm)

theorem clanPass_no_lb : ∀ {l : List Char}, '[' ∉ l → clanPass l = l := by
  intro l
  induction l using clanPass.induct with
  | case1 => intro _; exact clanPass_nil
  | case2 t content after hsp ih => intro h; exact absurd (by simp : '[' ∈ '[' :: t) h
  | case3 t hsp ih => intro h; exact absurd (by simp : '[' ∈ '[' :: t) h
  | case4 c t hc ih =>
    intro h
    rw [clanPass_cons_ne t hc, ih (fun hm => h (by simp [hm]))]

theorem clanPass_append_ws_left {w : List Char} (hw : '[' ∉ w) :
    ∀ y : List Char, clanPass (w ++ y) = w ++ clanPass y := by
  induction w with
  | nil => intro y; simp
  | cons c t ih =>
    intro y
    have hc : c ≠ '[' := fun hh => hw (by simp [hh])
    simp only [List.cons_append]
    rw [clanPass_cons_ne (t ++ y) hc, ih (fun hm => hw (by simp [hm])) y]

theorem clanPass_append_nb {w : List Char} (hw1 : '[' ∉ w) (hw2 : ']' ∉ w) :
    ∀ y : List Char, clanPass (y ++ w) = clanPass y ++ w := by
  intro y
  induction y using clanPass.induct with
  | case1 => simpa [clanPass_nil] using clanPass_no_lb hw1
  | case2 t content after hsp ih =>
    simp only [List.cons_append]
    rw [clanPass_cons_some (spanToBracket_append_some hsp), clanPass_cons_some hsp]
    simp [ih]
  | case3 t hsp ih =>
    simp only [List.cons_append]
    rw [clanPass_cons_none (spanToBracket_append_none hw2 hsp), clanPass_cons_none hsp]
    simp [ih]
  | case4 c t hc ih =>
    simp only [List.cons_append]
    rw [clanPass_cons_ne (t ++ w) hc, clanPass_cons_ne t hc]
    simp [ih]

theorem spanToBracket_clanPass_none :
    ∀ {l : List Char}, spanToBracket l = none → spanToBracket (clanPass l) = none := by
  intro l
  induction l using clanPass.induct with
  | case1 => intro h; rw [clanPass_nil]; exact h
  | case2 t content after hsp ih =>
    intro h
    rw [spanToBracket, if_neg (by decide), if_neg (by decide), hsp] at h
    simp at h
  | case3 t hsp ih =>
    intro h
    rw [clanPass_cons_none hsp]
    rw [spanToBracket, if_neg (by decide), if_neg (by decide), ih hsp]
  | case4 c t hc ih =>
    intro h
    rw [clanPass_cons_ne t hc]
    by_cases hcb : c = ']'
    · rw [spanToBracket, if_pos hcb] at h; simp at h
    · by_cases hn : c = '\n'
      · rw [spanToBracket, if_neg hcb, if_pos hn]
      · rw [spanToBracket, if_neg hcb, if_neg hn] at h
        rw [spanToBracket, if_neg hcb, if_neg hn]
        cases hsp : spanToBracket t with
        | none => rw [ih hsp]
        | some p => rw [hsp] at h; simp at h

theorem filter_keepClan_idem (l : List Char) :
    (l.filter keepClan).filter keepClan = l.filter keepClan :=
  List.filter_eq_self.mpr fun c hc => List.mem_filter.mp hc |>.2

theorem clanPass_idem : ∀ l : List Char, clanPass (clanPass l) = clanPass l := by
  intro l
  induction l using clanPass.induct with
  | case1 => rw [clanPass_nil, clanPass_nil]
  | case2 t content after hsp ih =>
    obtain ⟨-, hb, hn⟩ := spanToBracket_eq hsp
    rw [clanPass_cons_some hsp]
    have hbf : ']' ∉ content.filter keepClan :=
      fun hm => hb ((content.filter_sublist).subset hm)
    have hnf : '\n' ∉ content.filter keepClan :=
      fun hm => hn ((content.filter_sublist).subset hm)
    rw [clanPass_cons_some (spanToBracket_clean hbf hnf (clanPass after))]
    rw [filter_keepClan_idem, ih]
  | case3 t hsp ih =>
    rw [clanPass_cons_none hsp]
    rw [clanPass_cons_none (spanToBracket_clanPass_none hsp), ih]
  | case4 c t hc ih =>
    rw [clanPass_cons_ne t hc, clanPass_cons_ne (clanPass t) hc, ih]

/-! Facts about `trimLeft`, `trimRight` and `pyStrip`. -/

theorem head?_dropWhile (p : Char → Bool) :
    ∀ l : List Char, ∀ c, (List.dropWhile p l).head? = some c → p c = false := by
  intro l
  induction l with
  | nil => intro c h; simp [List.dropWhile] at h
  | cons a t ih =>
    intro c h
    rw [List.dropWhile_cons] at h
    by_cases hp : p a = true
    · rw [if_pos hp] at h; exact ih c h
    · rw [if_neg hp] at h
      simp only [List.head?_cons, Option.some.injEq] at h
      subst h
      simpa using hp

theorem dropWhile_eq_self_of_head (p : Char → Bool) (l : List Char)
    (h : ∀ c, l.head? = some c → p c = false) : List.dropWhile p l = l := by
  cases l with
  | nil => rfl
  | cons a t =>
    rw [List.dropWhile_cons, if_neg (by simp [h a rfl])]

theorem dropWhile_pySpace_idem (p : Char → Bool) (l : List Char) :
    List.dropWhile p (List.dropWhile p l) = List.dropWhile p l :=
  dropWhile_eq_self_of_head p _ (head?_dropWhile p l)

theorem head?_trimLeft {l : List Char} {c : Char} (h : (trimLeft l).head? = some c) :
    pySpace c = false :=
  head?_dropWhile pySpace l c h

theorem trimLeft_eq_self {l : List Char} (h : ∀ c, l.head? = some c → pySpace c = false) :
    trimLeft l = l :=
  dropWhile_eq_self_of_head pySpace l h

theorem trimLeft_decomp (l : List Char) :
    ∃ w, (∀ c ∈ w, pySpace c = true) ∧ l = w ++ trimLeft l :=
  ⟨l.takeWhile pySpace, fun _ hc => List.mem_takeWhile_imp hc,
    (List.takeWhile_append_dropWhile pySpace l).symm⟩

theorem trimRight_decomp (l : List Char) :
    ∃ w, (∀ c ∈ w, pySpace c = true) ∧ l = trimRight l ++ w := by
  refine ⟨(l.reverse.takeWhile pySpace).reverse,
    fun c hc => List.mem_takeWhile_imp (List.mem_reverse.mp hc), ?_⟩
  calc l = l.reverse.reverse := (List.reverse_reverse l).symm
    _ = (l.reverse.takeWhile pySpace ++ l.reverse.dropWhile pySpace).reverse := by
        rw [List.takeWhile_append_dropWhile pySpace l.reverse]
    _ = trimRight l ++ (l.reverse.takeWhile pySpace).reverse := by
        rw [List.reverse_append]; rfl

theorem trimLeft_sublist (l : List Char) : List.Sublist (trimLeft l) l :=
  List.dropWhile_sublist pySpace

theorem trimRight_sublist (l : List Char) : List.Sublist (trimRight l) l := by
  obtain ⟨w, -, hl⟩ := trimRight_decomp l
  conv_rhs => rw [hl]
  exact List.sublist_append_left _ _

theorem pyStrip_sublist (l : List Char) : List.Sublist (pyStrip l) l :=
  (trimRight_sublist _).trans (trimLeft_sublist l)

theorem head?_trimRight_eq {l : List Char} (h : trimRight l ≠ []) :
    (trimRight l).head? = l.head? := by
  obtain ⟨w, -, hl⟩ := trimRight_decomp l
  conv_rhs => rw [hl]
  cases htr : trimRight l with
  | nil => exact absurd htr h
  | cons a t => simp

theorem trimRight_idem (l : List Char) : trimRight (trimRight l) = trimRight l := by
  unfold trimRight
  rw [List.reverse_reverse, dropWhile_pySpace_idem]

theorem pyStrip_idem (l : List Char) : pyStrip (pyStrip l) = pyStrip l := by
  unfold pyStrip
  have h1 : trimLeft (trimRight (trimLeft l)) = trimRight (trimLeft l) := by
    apply trimLeft_eq_self
    intro c hc
    by_cases hne : trimRight (trimLeft l) = []
    · rw [hne] at hc; simp at hc
    · rw [head?_trimRight_eq hne] at hc
      exact head?_trimLeft hc
  rw [h1, trimRight_idem]

theorem noEnt_pyStrip (l : List Char) (h : noEnt l) : noEnt (pyStrip l) := by
  unfold pyStrip
  have h1 : noEnt (trimLeft l) := by
    obtain ⟨w, -, hl⟩ := trimLeft_decomp l
    exact noEnt_append_right w _ (hl ▸ h)
  obtain ⟨w, -, hl⟩ := trimRight_decomp (trimLeft l)
  exact noEnt_append_left _ w (hl ▸ h1)

theorem clanPass_pyStrip {x : List Char} (h : clanPass x = x) :
    clanPass (pyStrip x) = pyStrip x := by
  unfold pyStrip
  have h1 : clanPass (trimLeft x) = trimLeft x := by
    obtain ⟨w, hw, hl⟩ := trimLeft_decomp x
    have hnb : '[' ∉ w := fun hm => absurd (hw _ hm) (by decide)
    have h2 : clanPass (w ++ trimLeft x) = w ++ clanPass (trimLeft x) :=
      clanPass_append_ws_left hnb _
    rw [← hl, h] at h2
    exact (List.append_cancel_left (hl.symm.trans h2)).symm
  obtain ⟨w, hw, hl⟩ := trimRight_decomp (trimLeft x)
  have hnb1 : '[' ∉ w := fun hm => absurd (hw _ hm) (by decide)
  have hnb2 : ']' ∉ w := fun hm => absurd (hw _ hm) (by decide)
  have h2 : clanPass (trimRight (trimLeft x) ++ w) = clanPass (trimRight (trimLeft x)) ++ w :=
    clanPass_append_nb hnb1 hnb2 _
  rw [← hl, h1] at h2
  exact (List.append_cancel_right (hl.symm.trans h2)).symm

theorem sanitizeL_idem (l : List Char) : sanitizeL (sanitizeL l) = sanitizeL l := by
  set m := sanitizeL l with hm
  have hTag : noTag m := by
    have hsub1 : List.Sublist m (removeTags l) := by
      rw [hm]; unfold sanitizeL
      exact (pyStrip_sublist _).trans ((clanPass_sublist _).trans
        (((removeEntities (removeTags l)).filter_sublist).trans (removeEntities_sublist _)))
    exact noTag_sublist hsub1 (noTag_removeTags l)
  have hEnt : noEnt m := by
    rw [hm]; unfold sanitizeL
    exact noEnt_pyStrip _ (noEnt_clanPass _
      (noEnt_filter _ (by decide) _ (noEnt_removeEntities _)))
  have hQ : noQuote m := by
    have h0 : noQuote (removeQuotes (removeEntities (removeTags l))) := noQuote_removeQuotes _
    have hsub2 : List.Sublist m (removeQuotes (removeEntities (removeTags l))) := by
      rw [hm]; unfold sanitizeL
      exact (pyStrip_sublist _).trans (clanPass_sublist _)
    exact noQuote_sublist hsub2 h0
  have hClan : clanPass m = m := by
    rw [hm]; unfold sanitizeL
    exact clanPass_pyStrip (clanPass_idem _)
  have hStrip : pyStrip m = m := by
    rw [hm]; unfold sanitizeL
    exact pyStrip_idem _
  show pyStrip (clanPass (removeQuotes (removeEntities (removeTags m)))) = m
  rw [removeTags_eq_self m hTag, removeEntities_eq_self m hEnt,
    removeQuotes_eq_self m hQ, hClan, hStrip]

/-- C3: the player-name sanitizer is idempotent: for every input string `x`,
`sanitize(sanitize(x)) = sanitize(x)`. -/
theorem C3_sanitize_idempotent (s : String) :
    sanitize_player_name (sanitize_player_name s) = sanitize_player_name s := by
  unfold sanitize_player_name
  show String.mk (sanitizeL (sanitizeL s.data)) = String.mk (sanitizeL s.data)
  rw [sanitizeL_idem]

/-! ### Data model of the world-state cache and the Socket.IO handlers (app.py)

The module-level mutable dictionaries `players`, `last_db_update`
(a `defaultdict(float)`, missing keys read as `0`), `last_db_positions` and
`socket_to_user_map` form the server state.  Firestore writes issued by a
handler are recorded in an explicit write log, Socket.IO `emit` calls in an
emit log, and an uncaught Python exception in the handler is recorded by the
`raised` flag (module state mutated before the raise is kept, as in Python).
Numeric values (`time.time()`, coordinates) are embedded as rationals;
dictionary fields that can be absent are `Option`-valued. -/

structure Color where
  r : ℚ
  g : ℚ
  b : ℚ
deriving DecidableEq

/-- A position dictionary `{x, y, z}`; the handler builds it from
`data.get(...)` results, so each component can be `None`. -/
structure Pos3 where
  x : Option ℚ
  y : Option ℚ
  z : Option ℚ
deriving DecidableEq

/-- A cached player dictionary.  `name`, `color`, `position`, `active` and
`last_update` are set on every creation path; the counters (and
`rotation`/`mode`) are read with presence checks in the handlers, so they are
`Option`-valued here. -/
structure PlayerState where
  name : String
  color : Color
  position : Pos3
  rotation : Option ℚ
  mode : Option String
  fishCount : Option Int
  monsterKills : Option Int
  money : Option Int
  active : Bool
  last_update : ℚ
deriving DecidableEq

/-- Dictionary lookup on an association list (Python `d.get(k)` / `k in d`). -/
def getA {α : Type} (k : String) : List (String × α) → Option α
  | [] => none
  | (k2, v) :: t => if k2 = k then some v else getA k t

/-- Dictionary store `d[k] = v`. -/
def setA {α : Type} (k : String) (v : α) : List (String × α) → List (String × α)
  | [] => [(k, v)]
  | (k2, v2) :: t => if k2 = k then (k2, v) :: t else (k2, v2) :: setA k v t

/-- Dictionary removal `d.pop(k, None)`. -/
def eraseA {α : Type} (k : String) : List (String × α) → List (String × α)
  | [] => []
  | (k2, v2) :: t => if k2 = k then t else (k2, v2) :: eraseA k t

/-- The four module-level dictionaries of app.py. -/
structure ServerState where
  players : List (String × PlayerState)
  lastDbUpdate : List (String × ℚ)
  lastDbPositions : List (String × Pos3)
  socketMap : List (String × String)
deriving DecidableEq

/-- One Firestore write, one constructor per `firestore_models.Player.update`
call site reached by the embedded handlers, carrying that call's keyword
arguments. -/
inductive StoreOp where
  | updPosition (id : String) (position : Pos3) (last_update : ℚ)
      (rotation : Option ℚ) (mode : Option String)
  | updActive (id : String) (active : Bool) (last_update : ℚ)
  | updFishCount (id : String) (fishCount : Int)
  | updMonsterKills (id : String) (monsterKills : Int)
  | updMoney (id : String) (money : Int)
deriving DecidableEq

/-- One Socket.IO `emit` call (broadcast payloads as sent by the handlers;
the leaderboard payload, recomputed from the store by the aggregator
modelled separately below, is not replicated in the emit log). -/
inductive Emit where
  | playerMoved (id : String) (position : Pos3) (rotation : Option ℚ) (mode : Option String)
  | playerDisconnected (id : String)
  | playerAchievement (id : String) (name : String) (achievement : String) (counter : Int)
  | leaderboardUpdate
  | newMessage (content : String) (player_id : String) (sender_name : String) (timestamp : String)
deriving DecidableEq

/-- Result of running one handler: the final module state, the Firestore
writes issued, the emits issued, and whether the handler raised. -/
structure HRes where
  state : ServerState
  writes : List StoreOp
  emits : List Emit
  raised : Bool
deriving DecidableEq

/-- `DB_UPDATE_INTERVAL = 2` (app.py:58). -/
def DB_UPDATE_INTERVAL : ℚ := 2

/-- `MIN_POSITION_UPDATE_DISTANCE = 20` (app.py:60). -/
def MIN_POSITION_UPDATE_DISTANCE : ℚ := 20

/-- Payload of an `update_position` event (all fields via `data.get`). -/
structure PosUpd where
  player_id : Option String
  x : Option ℚ
  y : Option ℚ
  z : Option ℚ
  rotation : Option ℚ
  mode : Option String
deriving DecidableEq

/-- Python subtraction on possibly-`None` operands: `None - v` or `v - None`
raises `TypeError`. -/
def optSub (a b : Option ℚ) : Except String ℚ :=
  match a, b with
  | some q1, some q2 => Except.ok (q1 - q2)
  | _, _ => Except.error "TypeError"

/-- The `should_update_db` computation of `handle_position_update`
(app.py:287-304): `True` when the player has no recorded last database
position, otherwise the Euclidean-distance comparison
`(dx*dx+dy*dy+dz*dz) ** 0.5 > MIN_POSITION_UPDATE_DISTANCE`, embedded as the
equivalent squared comparison (both sides are nonnegative reals). -/
def shouldUpdateDb (st : ServerState) (pid : String) (pos : Pos3) : Except String Bool :=
  match getA pid st.lastDbPositions with
  | none => Except.ok true
  | some lastPos => do
    let dx ← optSub pos.x lastPos.x
    let dy ← optSub pos.y lastPos.y
    let dz ← optSub pos.z lastPos.z
    Except.ok (decide (dx * dx + dy * dy + dz * dz >
      MIN_POSITION_UPDATE_DISTANCE * MIN_POSITION_UPDATE_DISTANCE))

/-- Embedding of `handle_position_update` (app.py:238-335).  `now` is the
`time.time()` read at app.py:270.  Note the validation at app.py:261 tests
only `x is None or z is None`: `y` is not checked. -/
def handle_position_update (st : ServerState) (now : ℚ) (d : PosUpd) : HRes :=
  match d.player_id with
  | none => ⟨st, [], [], false⟩
  | some pid =>
    if pid = "" then ⟨st, [], [], false⟩
    else if d.x = none ∨ d.z = none then ⟨st, [], [], false⟩
    else match getA pid st.players with
      | none => ⟨st, [], [], false⟩
      | some p =>
        let position : Pos3 := ⟨d.x, d.y, d.z⟩
        let p1 : PlayerState :=
          { p with position := position,
                   rotation := if d.rotation.isSome then d.rotation else p.rotation,
                   mode := if d.mode.isSome then d.mode else p.mode,
                   last_update := now }
        let st1 := { st with players := setA pid p1 st.players }
        match shouldUpdateDb st pid position with
        | Except.error _ => ⟨st1, [], [], true⟩
        | Except.ok shouldUpd =>
          if now - ((getA pid st.lastDbUpdate).getD 0) > DB_UPDATE_INTERVAL ∧ shouldUpd then
            ⟨{ st1 with lastDbUpdate := setA pid now st1.lastDbUpdate,
                        lastDbPositions := setA pid position st1.lastDbPositions },
             [StoreOp.updPosition pid position now d.rotation d.mode],
             [Emit.playerMoved pid position d.rotation d.mode], false⟩
          else
            ⟨st1, [], [Emit.playerMoved pid position d.rotation d.mode], false⟩

/-- Embedding of `handle_disconnect` (app.py:123-144).  `now` is the
`time.time()` passed to the Firestore update. -/
def handle_disconnect (st : ServerState) (now : ℚ) (sid : String) : HRes :=
  let pidOpt := getA sid st.socketMap
  let st0 : ServerState := { st with socketMap := eraseA sid st.socketMap }
  match pidOpt with
  | none => ⟨st0, [], [], false⟩
  | some pid =>
    if pid = "" then ⟨st0, [], [], false⟩
    else match getA pid st0.players with
      | none => ⟨st0, [], [], false⟩
      | some p =>
        ⟨{ st0 with players := setA pid { p with active := false } st0.players },
         [StoreOp.updActive pid false now],
         [Emit.playerDisconnected pid], false⟩

/-- Embedding of Python `str.startswith(pre)`: the first `len(pre)`
characters equal `pre`.  (Defined on the character lists so that concrete
instances evaluate in the kernel.) -/
def pyStartsWith (s pre : String) : Bool :=
  decide (pre.data = s.data.take pre.data.length)

/-- Payload of a `player_action` event; `typ` is the payload's `type` key. -/
structure ActionData where
  action : Option String
  typ : Option String
  player_id : Option String
  amount : Option Int
deriving DecidableEq

/-- `data.get('action') or data.get('type')` (app.py:340): a missing or
falsy (empty) `action` falls back to `type`. -/
def actionTypeOf (d : ActionData) : Option String :=
  match d.action with
  | some a => if a = "" then d.typ else some a
  | none => d.typ

/-- Embedding of `handle_player_action` (app.py:337-426). -/
def handle_player_action (st : ServerState) (d : ActionData) : HRes :=
  let actionType := actionTypeOf d
  match d.player_id with
  | none => ⟨st, [], [], false⟩
  | some pid =>
    if pid = "" ∨ ¬ pyStartsWith pid "firebase_" = true then ⟨st, [], [], false⟩
    else match getA pid st.players with
      | none => ⟨st, [], [], false⟩
      | some p =>
        if actionType = some "fish_caught" then
          let n := p.fishCount.getD 0 + 1
          ⟨{ st with players := setA pid { p with fishCount := some n } st.players },
           [StoreOp.updFishCount pid n],
           [Emit.playerAchievement pid p.name "Caught a fish!" n, Emit.leaderboardUpdate],
           false⟩
        else if actionType = some "monster_killed" then
          let n := p.monsterKills.getD 0 + 1
          ⟨{ st with players := setA pid { p with monsterKills := some n } st.players },
           [StoreOp.updMonsterKills pid n],
           [Emit.playerAchievement pid p.name "Defeated a sea monster!" n,
            Emit.leaderboardUpdate],
           false⟩
        else if actionType = some "money_earned" then
          let amount := d.amount.getD 0
          let n := p.money.getD 0 + amount
          ⟨{ st with players := setA pid { p with money := some n } st.players },
           [StoreOp.updMoney pid n],
           [Emit.playerAchievement pid p.name "Earned coins!" n, Emit.leaderboardUpdate],
           false⟩
        else ⟨st, [], [], false⟩

/-- `sanitize`-independent embedding of `str.strip()` on strings, used by the
chat handler (`data.get('content', '').strip()`). -/
def pyStripS (s : String) : String := String.mk (pyStrip s.data)

/-- Payload of a `send_message` event: either a raw string or an object. -/
inductive ChatIn where
  | raw (s : String)
  | obj (content : Option String) (player_id : Option String) (player_name : Option String)
deriving DecidableEq

/-- Embedding of `handle_chat_message` (app.py:428-497).  `nowIso` is
`datetime.now().isoformat()`.  The handler mutates no cache or store state;
its only effect is a broadcast of the message object. -/
def handle_chat_message (st : ServerState) (nowIso : String) (d : ChatIn) : HRes :=
  let content := match d with
    | ChatIn.raw s => pyStripS s
    | ChatIn.obj c _ _ => pyStripS (c.getD "")
  let player_id : Option String := match d with
    | ChatIn.raw _ => none
    | ChatIn.obj _ pid _ => pid
  let player_name : Option String := match d with
    | ChatIn.raw _ => none
    | ChatIn.obj _ _ pn => pn
  if content = "" ∨ content.length > 500 then ⟨st, [], [], false⟩
  else match player_id with
    | none => ⟨st, [], [], false⟩
    | some pid =>
      if pid = "" ∨ ¬ pyStartsWith pid "firebase_" = true then ⟨st, [], [], false⟩
      else
        let resolvedName : Option String :=
          if player_name.getD "" = "" then
            match getA pid st.players with
            | some p => some p.name
            | none => player_name
          else player_name
        let finalName := if resolvedName.getD "" = "" then "Unknown Sailor"
          else resolvedName.getD ""
        ⟨st, [], [Emit.newMessage content pid finalName nowIso], false⟩

/-- The player dictionary built by `firestore_models.Player.create` defaults
(firestore_models.py:47-62), as cached for a brand-new player joining
(counters all zero); `created_at`/`firebase_uid` are never read by the
embedded handlers and are not modelled. -/
def freshPlayer (player_id : String) (now : ℚ) : PlayerState :=
  { name := "Sailor " ++ player_id.take 4
    color := ⟨3/10, 6/10, 8/10⟩
    position := ⟨some 0, some 0, some 0⟩
    rotation := some 0
    mode := some "boat"
    fishCount := some 0
    monsterKills := some 0
    money := some 0
    active := true
    last_update := now }

/-- Processing a sequence of `player_action` events in arrival order. -/
def processActions (st : ServerState) : List ActionData → ServerState
  | [] => st
  | d :: rest => processActions (handle_player_action st d).state rest

/-- Processing a sequence of timestamped `update_position` events in arrival
order (an exception in one handler invocation does not stop later events;
module state mutated before the raise is kept). -/
def processPositionUpdates (st : ServerState) : List (ℚ × PosUpd) → ServerState
  | [] => st
  | (t, d) :: rest => processPositionUpdates (handle_position_update st t d).state rest

/-- The last supplied (`some`) value in a sequence of optional updates,
starting from `init`: the value of a cache field that is assigned only when
the corresponding event field is present. -/
def lastSupplied {α : Type} (init : Option α) (l : List (Option α)) : Option α :=
  l.foldl (fun acc o => if o.isSome then o else acc) init

/-! ### Chat message retrieval (firestore_models.py:235-345)

Stored message documents carry a numeric `timestamp` (`time.time()`),
embedded here as a natural number; `serialize_timestamp` (lines 8-14) is
`str(value)`, embedded as decimal rendering.  The store's
`order_by(timestamp, DESCENDING)` is modelled as a stable descending sort of
the stream order (`List.insertionSort` is stable); the fallback's
`messages.sort(key=..., reverse=True)` is Python's stable sort, with the
key being the *serialized string* timestamp, compared lexicographically. -/

structure MsgDoc where
  sender_id : String
  content : String
  timestamp : Nat
  message_type : String
deriving DecidableEq

/-- A message after `Message.to_dict`: the timestamp has been turned into a
string by `serialize_timestamp`. -/
structure MsgOut where
  sender_id : String
  content : String
  timestamp : String
  message_type : String
deriving DecidableEq

/-- A message after the sender-information enrichment loop
(firestore_models.py:334-341). -/
structure MsgRich where
  sender_id : String
  content : String
  timestamp : String
  message_type : String
  sender_name : String
  sender_color : Color
deriving DecidableEq

/-- `serialize_timestamp` (firestore_models.py:8-14): `str(value)` on the
stored numeric timestamp. -/
def serialize_timestamp (n : Nat) : String := Nat.repr n

/-- `Message.to_dict` (firestore_models.py:244-256) restricted to the fields
of a message document. -/
def msgToDict (m : MsgDoc) : MsgOut :=
  ⟨m.sender_id, m.content, serialize_timestamp m.timestamp, m.message_type⟩

/-- The enrichment of one message with sender name and color
(firestore_models.py:334-341); `senders` abstracts `Player.get`. -/
def addSenderInfo (senders : String → Option (String × Color)) (m : MsgOut) : MsgRich :=
  match senders m.sender_id with
  | some p => ⟨m.sender_id, m.content, m.timestamp, m.message_type, p.1, p.2⟩
  | none => ⟨m.sender_id, m.content, m.timestamp, m.message_type, "Unknown",
      ⟨1/2, 1/2, 1/2⟩⟩

/-- Descending order on raw documents by numeric timestamp (the indexed
store-side `order_by ... DESCENDING`). -/
def tsDescNum (a b : MsgDoc) : Prop := b.timestamp ≤ a.timestamp

instance : DecidableRel tsDescNum :=
  fun a b => inferInstanceAs (Decidable (b.timestamp ≤ a.timestamp))

/-- Descending order on serialized messages by *string* timestamp (the
fallback's in-memory `sort(key=lambda x: x.get('timestamp', 0),
reverse=True)` after `to_dict` has stringified the timestamps).  Python
compares strings lexicographically by code point, embedded as the list
order on the characters: `a` may precede `b` iff `key b ≤ key a`, i.e.
`¬ (key a < key b)`. -/
def tsDescStr (a b : MsgOut) : Prop := ¬ (a.timestamp.data < b.timestamp.data)

instance : DecidableRel tsDescStr :=
  fun a b => inferInstanceAs (Decidable (¬ (a.timestamp.data < b.timestamp.data)))

/-- The indexed path of `Message.get_recent_messages`
(firestore_models.py:309-318 plus the shared enrichment and final
`reverse`): filter by type, order by timestamp descending store-side, limit,
convert, enrich, reverse. -/
def get_recent_messages_indexed (store : List MsgDoc)
    (senders : String → Option (String × Color)) (limit : Nat)
    (message_type : String) : List MsgRich :=
  let docs := (List.insertionSort tsDescNum
    (store.filter (fun m => decide (m.message_type = message_type)))).take limit
  (((docs.map msgToDict).map (addSenderInfo senders))).reverse

/-- The fallback path of `Message.get_recent_messages`
(firestore_models.py:320-331 plus the shared enrichment and final
`reverse`): fetch all of the type, convert, sort in memory by the serialized
timestamp descending, take the first `limit`, enrich, reverse. -/
def get_recent_messages_fallback (store : List MsgDoc)
    (senders : String → Option (String × Color)) (limit : Nat)
    (message_type : String) : List MsgRich :=
  let messages := (store.filter (fun m => decide (m.message_type = message_type))).map msgToDict
  let sorted := List.insertionSort tsDescStr messages
  (((sorted.take limit).map (addSenderInfo senders))).reverse

/-! ### Inventory subsystem (firestore_models.py:347-523) -/

/-- One inventory entry `{name, <caught_at|found_at|acquired_at>, data}`;
the `data` payload is modelled as a key-value list. -/
structure InvItem where
  name : String
  ts : ℚ
  data : List (String × String)
deriving DecidableEq

/-- An inventory document: three ordered lists plus timestamps. -/
structure Inv where
  player_id : String
  fish : List InvItem
  treasures : List InvItem
  cargo : List InvItem
  created_at : ℚ
  updated_at : Option ℚ
deriving DecidableEq

/-- `Inventory.create` (firestore_models.py:383-400): a fresh document with
empty collections, stored under the player id. -/
def Inventory.create (store : List (String × Inv)) (pid : String) (now : ℚ) :
    Inv × List (String × Inv) :=
  let inv : Inv := ⟨pid, [], [], [], now, none⟩
  (inv, setA pid inv store)

/-- `Inventory.get` (firestore_models.py:371-381): read the document, lazily
creating a default one when absent. -/
def Inventory.get (store : List (String × Inv)) (pid : String) (now : ℚ) :
    Inv × List (String × Inv) :=
  match getA pid store with
  | some inv => (inv, store)
  | none => Inventory.create store pid now

/-- The collection named by `item_type` (only called with a validated type). -/
def collOf (inv : Inv) (itemType : String) : List InvItem :=
  if itemType = "fish" then inv.fish
  else if itemType = "treasures" then inv.treasures
  else inv.cargo

/-- Write back the collection named by `item_type`. -/
def setColl (inv : Inv) (itemType : String) (items : List InvItem) : Inv :=
  if itemType = "fish" then { inv with fish := items }
  else if itemType = "treasures" then { inv with treasures := items }
  else { inv with cargo := items }

/-- Embedding of `Inventory.remove_item` (firestore_models.py:480-505):
get-or-create the inventory, validate the item type, bounds-check the index
(`item_index < 0 or item_index >= len(current_items)` raises `ValueError`),
`pop` the element, persist via `Inventory.update` (which also stamps
`updated_at`), and return the removed element with the updated inventory.
The first component is the Python return value (or the raised error), the
second the store after the call.  The `none` arm of the element lookup is
unreachable: the preceding bounds check guarantees the index exists. -/
def remove_item (store : List (String × Inv)) (pid : String) (itemType : String)
    (idx : Int) (now : ℚ) : Except String (InvItem × Inv) × List (String × Inv) :=
  let gotten := Inventory.get store pid now
  let inventory := gotten.1
  let store1 := gotten.2
  if itemType ≠ "fish" ∧ itemType ≠ "treasures" ∧ itemType ≠ "cargo" then
    (Except.error "Item type must be fish, treasures, or cargo", store1)
  else
    let current_items := collOf inventory itemType
    if idx < 0 ∨ (current_items.length : Int) ≤ idx then
      (Except.error "Invalid index", store1)
    else
      match current_items[idx.toNat]? with
      | some removed =>
        let items2 := current_items.eraseIdx idx.toNat
        let inv2 : Inv := { setColl inventory itemType items2 with updated_at := some now }
        (Except.ok (removed, inv2), setA pid inv2 store1)
      | none =>
        (Except.error "Invalid index", store1)

/-! ### Leaderboard aggregator (firestore_models.py:103-157)

A stored player document as read by the aggregator; the projection reads
`name`, the category counter and `color` directly, so they are modelled as
present.  The store-side `order_by(category, DESCENDING).limit(limit)` is
modelled as a stable descending sort of the stream order followed by
`take`. -/

structure DBPlayer where
  name : String
  color : Color
  fishCount : Int
  monsterKills : Int
  money : Int
deriving DecidableEq

/-- The category dispatch of `Player.get_leaderboard`: the counter field
named by a category string, `none` for an invalid category. -/
def metricOf (category : String) : Option (DBPlayer → Int) :=
  if category = "fishCount" then some (fun p => p.fishCount)
  else if category = "monsterKills" then some (fun p => p.monsterKills)
  else if category = "money" then some (fun p => p.money)
  else none

/-- Descending order on player documents by a counter. -/
def descBy (m : DBPlayer → Int) (a b : DBPlayer) : Prop := m b ≤ m a

instance (m : DBPlayer → Int) : DecidableRel (descBy m) :=
  fun a b => inferInstanceAs (Decidable (m b ≤ m a))

/-- Embedding of `Player.get_leaderboard` (firestore_models.py:103-125):
raises `ValueError` for an unknown category, otherwise returns the stream of
the store-side descending-ordered limited query. -/
def Player.get_leaderboard (store : List DBPlayer) (category : String) (limit : Nat) :
    Except String (List DBPlayer) :=
  match metricOf category with
  | none => Except.error "Category must be fishCount, monsterKills, or money"
  | some m => Except.ok ((List.insertionSort (descBy m) store).take limit)

/-- One projected leaderboard entry
`{'name': ..., 'value': ..., 'color': ...}`. -/
structure LBEntry where
  name : String
  value : Int
  color : Color
deriving DecidableEq

/-- The three per-category leaderboards returned by
`Player.get_combined_leaderboard`. -/
structure CombinedLB where
  fishCount : List LBEntry
  monsterKills : List LBEntry
  money : List LBEntry
deriving DecidableEq

/-- The projection applied per entry at aggregation time: display name, the
category's value, and the stored color dictionary (the normalized RGB
triple) passed through as the display color. -/
def lbProject (m : DBPlayer → Int) (p : DBPlayer) : LBEntry := ⟨p.name, m p, p.color⟩

/-- Embedding of `Player.get_combined_leaderboard`
(firestore_models.py:127-157). -/
def Player.get_combined_leaderboard (store : List DBPlayer) (limit : Nat) :
    Except String CombinedLB := do
  let f ← Player.get_leaderboard store "fishCount" limit
  let k ← Player.get_leaderboard store "monsterKills" limit
  let mo ← Player.get_leaderboard store "money" limit
  Except.ok ⟨f.map (lbProject fun p => p.fishCount),
    k.map (lbProject fun p => p.monsterKills),
    mo.map (lbProject fun p => p.money)⟩

/-! ### Association-list lemmas -/

theorem getA_setA_self {α : Type} (k : String) (v : α) :
    ∀ l : List (String × α), getA k (setA k v l) = some v := by
  intro l
  induction l with
  | nil => simp [getA, setA]
  | cons kv t ih =>
    obtain ⟨k2, v2⟩ := kv
    by_cases h : k2 = k
    · simp [getA, setA, h]
    · simp [getA, setA, h, ih]

theorem getA_setA_ne {α : Type} {k k2 : String} (v : α) (h : k2 ≠ k) :
    ∀ l : List (String × α), getA k2 (setA k v l) = getA k2 l := by
  have hks : ¬ k = k2 := fun hh => h hh.symm
  intro l
  induction l with
  | nil => simp [getA, setA, hks]
  | cons kv t ih =>
    obtain ⟨k3, v3⟩ := kv
    by_cases h3 : k3 = k
    · subst h3
      simp [getA, setA, hks]
    · simp [getA, setA, h3, ih]

theorem eraseA_of_not_mem {α : Type} {k : String} :
    ∀ l : List (String × α), getA k l = none → eraseA k l = l := by
  intro l
  induction l with
  | nil => intro _; rfl
  | cons kv t ih =>
    obtain ⟨k2, v2⟩ := kv
    intro h
    by_cases h2 : k2 = k
    · simp [getA, h2] at h
    · simp only [getA, if_neg h2] at h
      simp [eraseA, h2, ih h]

theorem getA_eraseA_ne {α : Type} {k k2 : String} (h : k2 ≠ k) :
    ∀ l : List (String × α), getA k2 (eraseA k l) = getA k2 l := by
  have hks : ¬ k = k2 := fun hh => h hh.symm
  intro l
  induction l with
  | nil => rfl
  | cons kv t ih =>
    obtain ⟨k3, v3⟩ := kv
    by_cases h3 : k3 = k
    · subst h3
      simp [getA, eraseA, hks, ih]
    · simp [getA, eraseA, h3, ih]

theorem mem_setA {α : Type} {k : String} {v : α} :
    ∀ {l : List (String × α)} {pr : String × α}, pr ∈ setA k v l → pr.2 = v ∨ pr ∈ l := by
  intro l
  induction l with
  | nil =>
    intro pr h
    simp only [setA, List.mem_singleton] at h
    exact Or.inl (by rw [h])
  | cons kv t ih =>
    obtain ⟨k2, v2⟩ := kv
    intro pr h
    by_cases h2 : k2 = k
    · simp only [setA, if_pos h2, List.mem_cons] at h
      rcases h with h | h
      · exact Or.inl (by rw [h])
      · exact Or.inr (List.mem_cons_of_mem _ h)
    · simp only [setA, if_neg h2, List.mem_cons] at h
      rcases h with h | h
      · exact Or.inr (by simp [h])
      · rcases ih h with h3 | h3
        · exact Or.inl h3
        · exact Or.inr (List.mem_cons_of_mem _ h3)

/-! ### Claim theorems for the handlers -/

/-- C10: for every `player_action` or `send_message` event whose `player_id`
does not start with the literal prefix `firebase_` (the document-id prefix
attached to every identity at join, app.py:167), the handler returns without
mutating any cache or store state and without broadcasting anything — even
if that `player_id` matches a cached player (`handle_player_action` checks
the prefix before the cache, app.py:348; `handle_chat_message` at
app.py:456; the chat handler additionally never mutates state at all). -/
theorem C10_invalid_prefix_ignored (st : ServerState) :
    (∀ d : ActionData, ∀ pid, d.player_id = some pid →
      ¬ pyStartsWith pid "firebase_" = true →
      handle_player_action st d = ⟨st, [], [], false⟩) ∧
    (∀ nowIso : String, ∀ content pname : Option String, ∀ pid : String,
      ¬ pyStartsWith pid "firebase_" = true →
      handle_chat_message st nowIso (ChatIn.obj content (some pid) pname) =
        ⟨st, [], [], false⟩) := by
  constructor
  · intro d pid hpid hpre
    simp only [handle_player_action, hpid]
    rw [if_pos (Or.inr hpre)]
  · intro nowIso content pname pid hpre
    simp only [handle_chat_message]
    by_cases hc : pyStripS (content.getD "") = "" ∨ (pyStripS (content.getD "")).length > 500
    · rw [if_pos hc]
    · rw [if_neg hc, if_pos (Or.inr hpre)]

/-- Witness for C10 at a concrete state in which the id `p1` (which lacks
the `firebase_` prefix) is cached, showing both handlers ignore the events. -/
theorem C10_invalid_prefix_ignored_witness :
    (handle_player_action ⟨[("p1", freshPlayer "p1" 0)], [], [], []⟩
        ⟨some "fish_caught", none, some "p1", none⟩ =
      ⟨⟨[("p1", freshPlayer "p1" 0)], [], [], []⟩, [], [], false⟩) ∧
    (handle_chat_message ⟨[("p1", freshPlayer "p1" 0)], [], [], []⟩ "2024"
        (ChatIn.obj (some "hello") (some "p1") none) =
      ⟨⟨[("p1", freshPlayer "p1" 0)], [], [], []⟩, [], [], false⟩) :=
  ⟨(C10_invalid_prefix_ignored _).1 _ "p1" rfl (by decide),
   (C10_invalid_prefix_ignored _).2 "2024" (some "hello") none "p1" (by decide)⟩

/-- C6 counterexample: an `update_position` event with `x` and `z` present
but `y` missing is *not* dropped: `handle_position_update` validates only
`x is None or z is None` (app.py:261), so for a cached player with no prior
persisted position the event changes the cached state, issues a store write
and broadcasts `player_moved` — refuting the claim that any missing
coordinate among x, y, z is dropped silently. -/
theorem C6_missing_y_not_dropped :
    (handle_position_update ⟨[("firebase_p", freshPlayer "firebase_p" 0)], [], [], []⟩ 5
        ⟨some "firebase_p", some 1, none, some 1, none, none⟩).state.players ≠
      [("firebase_p", freshPlayer "firebase_p" 0)] ∧
    (handle_position_update ⟨[("firebase_p", freshPlayer "firebase_p" 0)], [], [], []⟩ 5
        ⟨some "firebase_p", some 1, none, some 1, none, none⟩).writes ≠ [] ∧
    (handle_position_update ⟨[("firebase_p", freshPlayer "firebase_p" 0)], [], [], []⟩ 5
        ⟨some "firebase_p", some 1, none, some 1, none, none⟩).emits ≠ [] := by
  decide

/-- C6 (amended): an `update_position` event in which `x` or `z` is missing
is dropped silently: the cached state is unchanged, no store write occurs,
no `player_moved` broadcast is sent, and no error is raised.  (An event
missing only `y` is not dropped: the handler proceeds with a null `y`.) -/
theorem C6_missing_xz_dropped (st : ServerState) (now : ℚ) (d : PosUpd)
    (h : d.x = none ∨ d.z = none) :
    handle_position_update st now d = ⟨st, [], [], false⟩ := by
  cases hp : d.player_id with
  | none => simp only [handle_position_update, hp]
  | some pid =>
    simp only [handle_position_update, hp]
    by_cases he : pid = ""
    · rw [if_pos he]
    · rw [if_neg he, if_pos h]

/-- Witness for the amended C6 at a concrete cached player and an event
missing `z`. -/
theorem C6_missing_xz_dropped_witness :
    handle_position_update ⟨[("firebase_p", freshPlayer "firebase_p" 0)], [], [], []⟩ 5
        ⟨some "firebase_p", some 1, some 1, none, none, none⟩ =
      ⟨⟨[("firebase_p", freshPlayer "firebase_p" 0)], [], [], []⟩, [], [], false⟩ :=
  C6_missing_xz_dropped _ 5 _ (Or.inr rfl)

/-- C2 counterexample: with two live connections `s1`, `s2` both bound to
the cached player `firebase_p`, disconnecting `s1` deactivates the player
and broadcasts `player_disconnected` even though `s2` is still bound to the
same id (`handle_disconnect` never checks for other bindings,
app.py:136-144) — refuting "deactivated only if no other live connection is
still bound" and the `active`-iff-live-connection invariant. -/
theorem C2_disconnect_other_binding :
    (handle_disconnect ⟨[("firebase_p", freshPlayer "firebase_p" 0)], [], [],
        [("s1", "firebase_p"), ("s2", "firebase_p")]⟩ 5 "s1").state.socketMap =
      [("s2", "firebase_p")] ∧
    ((handle_disconnect ⟨[("firebase_p", freshPlayer "firebase_p" 0)], [], [],
        [("s1", "firebase_p"), ("s2", "firebase_p")]⟩ 5 "s1").state.players.map
      (fun pr => (pr.1, pr.2.active))) = [("firebase_p", false)] ∧
    (handle_disconnect ⟨[("firebase_p", freshPlayer "firebase_p" 0)], [], [],
        [("s1", "firebase_p"), ("s2", "firebase_p")]⟩ 5 "s1").emits =
      [Emit.playerDisconnected "firebase_p"] := by
  decide

/-- C2 (amended): on disconnect, an unregistered connection is a no-op with
no broadcast; a connection bound to a cached player marks exactly that one
player inactive (in cache, with one store write) and emits exactly one
`player_disconnected` — unconditionally, even if another live connection is
still bound to the same player id (the remaining bindings are untouched).
A binding to an uncached id only removes the binding, with no broadcast. -/
theorem C2_disconnect (st : ServerState) (now : ℚ) (sid : String) :
    (getA sid st.socketMap = none → handle_disconnect st now sid = ⟨st, [], [], false⟩) ∧
    (∀ pid p, getA sid st.socketMap = some pid → pid ≠ "" →
      getA pid st.players = some p →
      (handle_disconnect st now sid).writes = [StoreOp.updActive pid false now] ∧
      (handle_disconnect st now sid).emits = [Emit.playerDisconnected pid] ∧
      (handle_disconnect st now sid).raised = false ∧
      getA pid (handle_disconnect st now sid).state.players =
        some { p with active := false } ∧
      (∀ q, q ≠ pid →
        getA q (handle_disconnect st now sid).state.players = getA q st.players) ∧
      (∀ sid2, sid2 ≠ sid →
        getA sid2 (handle_disconnect st now sid).state.socketMap =
          getA sid2 st.socketMap)) ∧
    (∀ pid, getA sid st.socketMap = some pid → pid ≠ "" →
      getA pid st.players = none →
      handle_disconnect st now sid =
        ⟨{ st with socketMap := eraseA sid st.socketMap }, [], [], false⟩) := by
  refine ⟨?_, ?_, ?_⟩
  · intro hnone
    simp only [handle_disconnect, hnone, eraseA_of_not_mem _ hnone]
  · intro pid p hsid hne hp
    have hp0 : getA pid
        ({ st with socketMap := eraseA sid st.socketMap } : ServerState).players =
        some p := hp
    simp only [handle_disconnect, hsid, if_neg hne, hp0]
    refine ⟨trivial, trivial, trivial, ?_, ?_, ?_⟩
    · exact getA_setA_self pid _ _
    · intro q hq
      exact getA_setA_ne _ hq _
    · intro sid2 hsid2
      exact getA_eraseA_ne hsid2 _
  · intro pid hsid hne hp
    have hp0 : getA pid
        ({ st with socketMap := eraseA sid st.socketMap } : ServerState).players =
        none := hp
    simp only [handle_disconnect, hsid, if_neg hne, hp0]

/-- Witness for the amended C2: a concrete state exercising the bound-and-
cached case (with a second connection still bound). -/
theorem C2_disconnect_witness :
    (handle_disconnect ⟨[("firebase_p", freshPlayer "firebase_p" 0)], [], [],
        [("s1", "firebase_p"), ("s2", "firebase_p")]⟩ 7 "s1").writes =
      [StoreOp.updActive "firebase_p" false 7] ∧
    (handle_disconnect ⟨[("firebase_p", freshPlayer "firebase_p" 0)], [], [],
        [("s1", "firebase_p"), ("s2", "firebase_p")]⟩ 7 "s1").emits =
      [Emit.playerDisconnected "firebase_p"] ∧
    getA "firebase_p" (handle_disconnect ⟨[("firebase_p", freshPlayer "firebase_p" 0)],
        [], [], [("s1", "firebase_p"), ("s2", "firebase_p")]⟩ 7 "s1").state.players =
      some { freshPlayer "firebase_p" 0 with active := false } := by
  obtain ⟨-, h2, -⟩ := C2_disconnect ⟨[("firebase_p", freshPlayer "firebase_p" 0)], [], [],
    [("s1", "firebase_p"), ("s2", "firebase_p")]⟩ 7 "s1"
  obtain ⟨hw, he, -, hp, -, -⟩ :=
    h2 "firebase_p" (freshPlayer "firebase_p" 0) rfl (by decide) rfl
  exact ⟨hw, he, hp⟩

/-- C1: for an `update_position` event carrying complete coordinates for a
cached player, a durable-store write is issued iff the time elapsed since
the player's last persist attempt (`now - last_db_update[pid]`, the
defaultdict reading `0` when the player never persisted) exceeds
`DB_UPDATE_INTERVAL` AND (the player has no prior persisted position OR the
Euclidean distance from it exceeds `MIN_POSITION_UPDATE_DISTANCE` — embedded
as the equivalent squared comparison); whenever a persist is attempted,
`last_db_update` and `last_db_positions` are set to the current time and
position at that moment (in the code, app.py:308-309, this precedes the
Firestore call, hence it happens regardless of whether the store write later
succeeds), and when no persist is attempted both are left untouched.  The
`hlp` hypothesis excludes a malformed stored position, on which the distance
computation would raise before the decision. -/
theorem C1_throttle_policy (st : ServerState) (now : ℚ) (d : PosUpd)
    (pid : String) (x y z : ℚ) (p : PlayerState)
    (hpid : d.player_id = some pid) (hne : pid ≠ "")
    (hx : d.x = some x) (hy : d.y = some y) (hz : d.z = some z)
    (hp : getA pid st.players = some p)
    (hlp : ∀ lp, getA pid st.lastDbPositions = some lp →
      ∃ px py pz, lp.x = some px ∧ lp.y = some py ∧ lp.z = some pz) :
    (handle_position_update st now d).raised = false ∧
    ((handle_position_update st now d).writes ≠ [] ↔
      (now - (getA pid st.lastDbUpdate).getD 0 > DB_UPDATE_INTERVAL ∧
        (getA pid st.lastDbPositions = none ∨
          ∃ lp px py pz, getA pid st.lastDbPositions = some lp ∧
            lp.x = some px ∧ lp.y = some py ∧ lp.z = some pz ∧
            (x - px) * (x - px) + (y - py) * (y - py) + (z - pz) * (z - pz) >
              MIN_POSITION_UPDATE_DISTANCE * MIN_POSITION_UPDATE_DISTANCE))) ∧
    ((handle_position_update st now d).writes ≠ [] →
      (handle_position_update st now d).writes =
        [StoreOp.updPosition pid ⟨some x, some y, some z⟩ now d.rotation d.mode] ∧
      getA pid (handle_position_update st now d).state.lastDbUpdate = some now ∧
      getA pid (handle_position_update st now d).state.lastDbPositions =
        some ⟨some x, some y, some z⟩) ∧
    ((handle_position_update st now d).writes = [] →
      (handle_position_update st now d).state.lastDbUpdate = st.lastDbUpdate ∧
      (handle_position_update st now d).state.lastDbPositions = st.lastDbPositions) := by
  have hxz2 : ¬ ((some x : Option ℚ) = none ∨ (some z : Option ℚ) = none) := by simp
  rcases hcase : getA pid st.lastDbPositions with _ | lp
  · have hsho : shouldUpdateDb st pid ⟨some x, some y, some z⟩ = Except.ok true := by
      simp only [shouldUpdateDb, hcase]
    by_cases htime : now - (getA pid st.lastDbUpdate).getD 0 > DB_UPDATE_INTERVAL
    · simp only [handle_position_update, hpid, hx, hy, hz]
      rw [if_neg hne, if_neg hxz2]
      simp only [hp, hsho]
      rw [if_pos ⟨htime, trivial⟩]
      refine ⟨rfl, ?_, ?_, ?_⟩
      · exact iff_of_true (by simp) ⟨htime, Or.inl trivial⟩
      · intro _
        exact ⟨rfl, getA_setA_self pid _ _, getA_setA_self pid _ _⟩
      · intro hw
        simp at hw
    · simp only [handle_position_update, hpid, hx, hy, hz]
      rw [if_neg hne, if_neg hxz2]
      simp only [hp, hsho]
      rw [if_neg (fun hc => htime hc.1)]
      refine ⟨rfl, ?_, ?_, ?_⟩
      · exact iff_of_false (by simp) (fun hc => htime hc.1)
      · intro hw
        simp at hw
      · intro _
        exact ⟨rfl, rfl⟩
  · obtain ⟨px, py, pz, hpx, hpy, hpz⟩ := hlp lp hcase
    have hsho : shouldUpdateDb st pid ⟨some x, some y, some z⟩ =
        Except.ok (decide ((x - px) * (x - px) + (y - py) * (y - py) + (z - pz) * (z - pz) >
          MIN_POSITION_UPDATE_DISTANCE * MIN_POSITION_UPDATE_DISTANCE)) := by
      simp only [shouldUpdateDb, hcase, hpx, hpy, hpz, optSub]
      rfl
    by_cases hdist : (x - px) * (x - px) + (y - py) * (y - py) + (z - pz) * (z - pz) >
        MIN_POSITION_UPDATE_DISTANCE * MIN_POSITION_UPDATE_DISTANCE
    · rw [decide_eq_true hdist] at hsho
      by_cases htime : now - (getA pid st.lastDbUpdate).getD 0 > DB_UPDATE_INTERVAL
      · simp only [handle_position_update, hpid, hx, hy, hz]
        rw [if_neg hne, if_neg hxz2]
        simp only [hp, hsho]
        rw [if_pos ⟨htime, trivial⟩]
        refine ⟨rfl, ?_, ?_, ?_⟩
        · exact iff_of_true (by simp)
            ⟨htime, Or.inr ⟨lp, px, py, pz, rfl, hpx, hpy, hpz, hdist⟩⟩
        · intro _
          exact ⟨rfl, getA_setA_self pid _ _, getA_setA_self pid _ _⟩
        · intro hw
          simp at hw
      · simp only [handle_position_update, hpid, hx, hy, hz]
        rw [if_neg hne, if_neg hxz2]
        simp only [hp, hsho]
        rw [if_neg (fun hc => htime hc.1)]
        refine ⟨rfl, ?_, ?_, ?_⟩
        · exact iff_of_false (by simp) (fun hc => htime hc.1)
        · intro hw
          simp at hw
        · intro _
          exact ⟨rfl, rfl⟩
    · rw [decide_eq_false hdist] at hsho
      have hcond : ¬ (now - (getA pid st.lastDbUpdate).getD 0 > DB_UPDATE_INTERVAL ∧
          (false : Bool) = true) := fun hc => by simp at hc
      simp only [handle_position_update, hpid, hx, hy, hz]
      rw [if_neg hne, if_neg hxz2]
      simp only [hp, hsho]
      rw [if_neg hcond]
      refine ⟨rfl, ?_, ?_, ?_⟩
      · refine iff_of_false (by simp) (fun hc => ?_)
        rcases hc.2 with h1 | h1
        · exact Option.noConfusion h1
        · obtain ⟨lp2, px2, py2, pz2, hlp2, hpx2, hpy2, hpz2, hd2⟩ := h1
          obtain rfl : lp = lp2 := Option.some.inj hlp2
          rw [hpx] at hpx2
          rw [hpy] at hpy2
          rw [hpz] at hpz2
          obtain rfl := Option.some.inj hpx2
          obtain rfl := Option.some.inj hpy2
          obtain rfl := Option.some.inj hpz2
          exact hdist hd2
      · intro hw
        simp at hw
      · intro _
        exact ⟨rfl, rfl⟩

/-- Witness for C1: a player with a persisted position 30 units away and an
elapsed time of 5 seconds; the theorem's equivalence yields the persist, the
bookkeeping update, and the recorded write. -/
theorem C1_throttle_policy_witness :
    (handle_position_update
        ⟨[("firebase_p", freshPlayer "firebase_p" 0)], [("firebase_p", 0)],
          [("firebase_p", ⟨some 0, some 0, some 0⟩)], []⟩ 5
        ⟨some "firebase_p", some 30, some 0, some 0, none, none⟩).writes ≠ [] := by
  have h := C1_throttle_policy
    ⟨[("firebase_p", freshPlayer "firebase_p" 0)], [("firebase_p", 0)],
      [("firebase_p", ⟨some 0, some 0, some 0⟩)], []⟩ 5
    ⟨some "firebase_p", some 30, some 0, some 0, none, none⟩
    "firebase_p" 30 0 0 (freshPlayer "firebase_p" 0) rfl (by decide) rfl rfl rfl rfl
    (fun lp hlp => by
      simp only [getA, if_true, reduceIte, Option.some.injEq] at hlp
      cases hlp
      exact ⟨0, 0, 0, rfl, rfl, rfl⟩)
  exact h.2.1.mpr ⟨by decide, Or.inr ⟨⟨some 0, some 0, some 0⟩, 0, 0, 0, rfl, rfl, rfl, rfl,
    by decide⟩⟩

/-- The cache mutation applied by `handle_position_update` to the targeted
player for a valid event (app.py:280-285): the position is overwritten,
`rotation` and `mode` only when supplied, and `last_update` refreshed. -/
def posUpdApply (p : PlayerState) (now : ℚ) (d : PosUpd) : PlayerState :=
  { p with position := ⟨d.x, d.y, d.z⟩,
           rotation := if d.rotation.isSome then d.rotation else p.rotation,
           mode := if d.mode.isSome then d.mode else p.mode,
           last_update := now }

/-- For a valid `update_position` event for a cached player, the cache after
the handler is exactly the old cache with the targeted entry replaced by
`posUpdApply` — on every control path, including a raising distance
computation (the cache is mutated before the raise) and the persisting
path. -/
theorem handle_position_update_players (st : ServerState) (now : ℚ) (d : PosUpd)
    (pid : String) (p : PlayerState)
    (hpid : d.player_id = some pid) (hne : pid ≠ "")
    (hx : d.x.isSome = true) (hz : d.z.isSome = true)
    (hp : getA pid st.players = some p) :
    (handle_position_update st now d).state.players =
      setA pid (posUpdApply p now d) st.players := by
  have hxz : ¬ (d.x = none ∨ d.z = none) := by
    intro h
    rcases h with h | h
    · rw [h] at hx; simp at hx
    · rw [h] at hz; simp at hz
  simp only [handle_position_update, hpid]
  rw [if_neg hne, if_neg hxz]
  simp only [hp]
  cases hsho : shouldUpdateDb st pid ⟨d.x, d.y, d.z⟩ with
  | error e => rfl
  | ok b =>
    dsimp only
    by_cases hcond : now - (getA pid st.lastDbUpdate).getD 0 > DB_UPDATE_INTERVAL ∧ b = true
    · rw [if_pos hcond]; rfl
    · rw [if_neg hcond]; rfl

/-- C5: for every cached player and every sequence of `update_position`
events for that player carrying complete coordinates, after processing the
sequence in arrival order the cache holds the last event's `(x, y, z)` as
the position, the last event's time as `last_update` (each event refreshes
it), and `rotation`/`mode` equal to the last supplied value in the sequence
(falling back to the prior cached value when never supplied) — i.e. those
two fields change only when supplied. -/
theorem C5_last_write_wins (st : ServerState) (pid : String) (p0 : PlayerState)
    (evs : List (ℚ × PosUpd)) (hne0 : evs ≠ [])
    (hpid0 : pid ≠ "")
    (hp0 : getA pid st.players = some p0)
    (hall : ∀ e ∈ evs, e.2.player_id = some pid ∧ e.2.x.isSome = true ∧
      e.2.y.isSome = true ∧ e.2.z.isSome = true) :
    ∃ p1, getA pid (processPositionUpdates st evs).players = some p1 ∧
      p1.position = ⟨(evs.getLast hne0).2.x, (evs.getLast hne0).2.y,
        (evs.getLast hne0).2.z⟩ ∧
      p1.last_update = (evs.getLast hne0).1 ∧
      p1.rotation = lastSupplied p0.rotation (evs.map (fun e => e.2.rotation)) ∧
      p1.mode = lastSupplied p0.mode (evs.map (fun e => e.2.mode)) := by
  induction evs generalizing st p0 with
  | nil => exact absurd rfl hne0
  | cons e rest ih =>
    obtain ⟨t, d⟩ := e
    obtain ⟨hpid, hx, hy, hz⟩ := hall (t, d) (List.mem_cons_self _ _)
    have hstep := handle_position_update_players st t d pid p0 hpid hpid0 hx hz hp0
    have hget : getA pid (handle_position_update st t d).state.players =
        some (posUpdApply p0 t d) := by
      rw [hstep]
      exact getA_setA_self pid _ _
    cases rest with
    | nil =>
      refine ⟨posUpdApply p0 t d, ?_, rfl, rfl, rfl, rfl⟩
      show getA pid (handle_position_update st t d).state.players = _
      exact hget
    | cons e2 rest2 =>
      have hne2 : e2 :: rest2 ≠ [] := by simp
      obtain ⟨p1, hp1, hpos, hlu, hrot, hmode⟩ :=
        ih (handle_position_update st t d).state (posUpdApply p0 t d) hne2 hget
          (fun e he => hall e (List.mem_cons_of_mem _ he))
      refine ⟨p1, hp1, ?_, ?_, ?_, ?_⟩
      · rw [hpos, List.getLast_cons hne2]
      · rw [hlu, List.getLast_cons hne2]
      · rw [hrot]; rfl
      · rw [hmode]; rfl

/-- Witness for C5: a two-event burst for one cached player; the final cache
position, `last_update`, rotation and mode are those of the last event. -/
theorem C5_last_write_wins_witness :
    ∃ p1, getA "firebase_p"
        (processPositionUpdates ⟨[("firebase_p", freshPlayer "firebase_p" 0)], [], [], []⟩
          [(1, ⟨some "firebase_p", some 1, some 2, some 3, some 9, none⟩),
           (2, ⟨some "firebase_p", some 4, some 5, some 6, none, some "swim"⟩)]).players =
      some p1 ∧
      p1.position = ⟨some 4, some 5, some 6⟩ ∧
      p1.last_update = 2 ∧
      p1.rotation = lastSupplied (freshPlayer "firebase_p" 0).rotation
        [some 9, none] ∧
      p1.mode = lastSupplied (freshPlayer "firebase_p" 0).mode
        [none, some "swim"] := by
  have h := C5_last_write_wins ⟨[("firebase_p", freshPlayer "firebase_p" 0)], [], [], []⟩
    "firebase_p" (freshPlayer "firebase_p" 0)
    [(1, ⟨some "firebase_p", some 1, some 2, some 3, some 9, none⟩),
     (2, ⟨some "firebase_p", some 4, some 5, some 6, none, some "swim"⟩)]
    (by simp) (by decide) rfl (by decide)
  simpa using h

theorem getA_mem {α : Type} {k : String} {v : α} :
    ∀ {l : List (String × α)}, getA k l = some v → (k, v) ∈ l := by
  intro l
  induction l with
  | nil => intro h; simp [getA] at h
  | cons kv t ih =>
    obtain ⟨k2, v2⟩ := kv
    intro h
    by_cases h2 : k2 = k
    · subst h2
      have h3 : v2 = v := by simpa [getA] using h
      subst h3
      exact List.mem_cons_self _ _
    · simp only [getA, if_neg h2] at h
      exact List.mem_cons_of_mem _ (ih h)

/-- Non-negativity of the three stat counters of a cached player (an absent
counter reads as zero, as the handlers read them). -/
def NonNegCounters (p : PlayerState) : Prop :=
  0 ≤ p.fishCount.getD 0 ∧ 0 ≤ p.monsterKills.getD 0 ∧ 0 ≤ p.money.getD 0

instance (p : PlayerState) : Decidable (NonNegCounters p) :=
  inferInstanceAs (Decidable (0 ≤ p.fishCount.getD 0 ∧ 0 ≤ p.monsterKills.getD 0 ∧
    0 ≤ p.money.getD 0))

/-- One `player_action` event preserves counter non-negativity across the
whole cache, provided a `money_earned` event carries a non-negative
amount. -/
theorem handle_player_action_nonneg (st : ServerState) (d : ActionData)
    (hamt : actionTypeOf d = some "money_earned" → 0 ≤ d.amount.getD 0)
    (h0 : ∀ pr ∈ st.players, NonNegCounters pr.2) :
    ∀ pr ∈ (handle_player_action st d).state.players, NonNegCounters pr.2 := by
  rcases hdp : d.player_id with _ | pid
  · simp only [handle_player_action, hdp]
    exact h0
  · by_cases hpre : pid = "" ∨ ¬ pyStartsWith pid "firebase_" = true
    · simp only [handle_player_action, hdp]
      rw [if_pos hpre]
      exact h0
    · rcases hgp : getA pid st.players with _ | p
      · simp only [handle_player_action, hdp]
        rw [if_neg hpre]
        simp only [hgp]
        exact h0
      · have hpcnt : NonNegCounters p := h0 (pid, p) (getA_mem hgp)
        simp only [handle_player_action, hdp]
        rw [if_neg hpre]
        simp only [hgp]
        by_cases hf : actionTypeOf d = some "fish_caught"
        · rw [if_pos hf]
          intro pr hpr
          rcases mem_setA hpr with h | h
          · rw [h]
            refine ⟨?_, hpcnt.2.1, hpcnt.2.2⟩
            have ha := hpcnt.1
            show 0 ≤ p.fishCount.getD 0 + 1
            omega
          · exact h0 pr h
        · rw [if_neg hf]
          by_cases hm : actionTypeOf d = some "monster_killed"
          · rw [if_pos hm]
            intro pr hpr
            rcases mem_setA hpr with h | h
            · rw [h]
              refine ⟨hpcnt.1, ?_, hpcnt.2.2⟩
              have ha := hpcnt.2.1
              show 0 ≤ p.monsterKills.getD 0 + 1
              omega
            · exact h0 pr h
          · rw [if_neg hm]
            by_cases hmo : actionTypeOf d = some "money_earned"
            · rw [if_pos hmo]
              intro pr hpr
              rcases mem_setA hpr with h | h
              · rw [h]
                refine ⟨hpcnt.1, hpcnt.2.1, ?_⟩
                have ha := hpcnt.2.2
                have hb := hamt hmo
                show 0 ≤ p.money.getD 0 + d.amount.getD 0
                omega
              · exact h0 pr h
            · rw [if_neg hmo]
              exact h0

/-- C8 counterexample: `money_earned` accepts an arbitrary `amount`
(`data.get('amount', 0)`, app.py:404) and adds it without a sign check, so
a single event with amount `-5` drives the freshly created player's money
counter to `-5` — refuting the claim that no sequence of `player_action`
events can make a counter negative. -/
theorem C8_negative_money :
    ((getA "firebase_p" (processActions
        ⟨[("firebase_p", freshPlayer "firebase_p" 0)], [], [], []⟩
        [⟨some "money_earned", none, some "firebase_p", some (-5)⟩]).players).map
      (fun p => p.money)) = some (some (-5)) := by
  decide

/-- C8 (amended): the counters `fishCount`, `monsterKills` and `money` of
every cached player are non-negative, and this is preserved by every
sequence of `player_action` events in which each `money_earned` payload
carries a non-negative amount (`fish_caught` and `monster_killed` only
increment; `money_earned` adds the payload amount, which the code does not
sign-check) — starting from any cache satisfying it, in particular from a
freshly created player with all counters zero. -/
theorem C8_counters_nonneg (st : ServerState) (evs : List ActionData)
    (h0 : ∀ pr ∈ st.players, NonNegCounters pr.2)
    (hamt : ∀ d ∈ evs, actionTypeOf d = some "money_earned" → 0 ≤ d.amount.getD 0) :
    ∀ pr ∈ (processActions st evs).players, NonNegCounters pr.2 := by
  induction evs generalizing st with
  | nil => exact h0
  | cons d rest ih =>
    exact ih (handle_player_action st d).state
      (handle_player_action_nonneg st d (hamt d (List.mem_cons_self _ _)) h0)
      (fun d2 hd2 => hamt d2 (List.mem_cons_of_mem _ hd2))

/-- Witness for the amended C8: a fresh player, one fish and one positive
money event; every cached player's counters remain non-negative. -/
theorem C8_counters_nonneg_witness :
    ((processActions ⟨[("firebase_p", freshPlayer "firebase_p" 0)], [], [], []⟩
        [⟨some "fish_caught", none, some "firebase_p", none⟩,
         ⟨some "money_earned", none, some "firebase_p", some 3⟩]).players.all
      (fun pr => decide (NonNegCounters pr.2))) = true := by
  rw [List.all_eq_true]
  intro pr hpr
  exact decide_eq_true
    (C8_counters_nonneg ⟨[("firebase_p", freshPlayer "firebase_p" 0)], [], [], []⟩
      [⟨some "fish_caught", none, some "firebase_p", none⟩,
       ⟨some "money_earned", none, some "firebase_p", some 3⟩]
      (by decide) (by decide) pr hpr)

/-- C7: for every existing player inventory, valid item type and integer
index `i`: `remove_item` fails with an out-of-range error unless
`0 ≤ i < length` of that collection, and on failure the stored inventory is
unchanged (a follow-up read returns the same items); when `i` is in range it
removes exactly the element at index `i` — the returned inventory's
collection is the original with that index deleted, the other collections
untouched — and returns both the removed element and the resulting
collection, which is also what a follow-up read returns. -/
theorem C7_remove_item (store : List (String × Inv)) (pid itemType : String)
    (idx : Int) (now : ℚ) (inv : Inv)
    (hinv : getA pid store = some inv)
    (htype : itemType = "fish" ∨ itemType = "treasures" ∨ itemType = "cargo") :
    (¬ (0 ≤ idx ∧ idx < ((collOf inv itemType).length : Int)) →
      (∃ e, (remove_item store pid itemType idx now).1 = Except.error e) ∧
      getA pid (remove_item store pid itemType idx now).2 = some inv) ∧
    (∀ (h0 : 0 ≤ idx) (h1 : idx < ((collOf inv itemType).length : Int)),
      ∃ removed inv2,
        (remove_item store pid itemType idx now).1 = Except.ok (removed, inv2) ∧
        (collOf inv itemType)[idx.toNat]? = some removed ∧
        collOf inv2 itemType = (collOf inv itemType).eraseIdx idx.toNat ∧
        (∀ t2, (t2 = "fish" ∨ t2 = "treasures" ∨ t2 = "cargo") → t2 ≠ itemType →
          collOf inv2 t2 = collOf inv t2) ∧
        inv2.updated_at = some now ∧
        getA pid (remove_item store pid itemType idx now).2 = some inv2) := by
  have hty : ¬ (itemType ≠ "fish" ∧ itemType ≠ "treasures" ∧ itemType ≠ "cargo") := by
    rcases htype with h | h | h
    · exact fun hc => hc.1 h
    · exact fun hc => hc.2.1 h
    · exact fun hc => hc.2.2 h
  have hg : Inventory.get store pid now = (inv, store) := by
    simp [Inventory.get, hinv]
  constructor
  · intro hrange
    have hr2 : idx < 0 ∨ ((collOf inv itemType).length : Int) ≤ idx := by omega
    simp only [remove_item, hg]
    rw [if_neg hty, if_pos hr2]
    exact ⟨⟨"Invalid index", rfl⟩, hinv⟩
  · intro h0 h1
    have hr2 : ¬ (idx < 0 ∨ ((collOf inv itemType).length : Int) ≤ idx) := by omega
    have hn : idx.toNat < (collOf inv itemType).length := by omega
    simp only [remove_item, hg]
    rw [if_neg hty, if_neg hr2, List.getElem?_eq_getElem hn]
    refine ⟨(collOf inv itemType).get ⟨idx.toNat, hn⟩,
      { setColl inv itemType ((collOf inv itemType).eraseIdx idx.toNat) with
        updated_at := some now }, rfl, ?_, ?_, ?_, rfl, ?_⟩
    · rfl
    · rcases htype with h | h | h <;> subst h <;> simp [collOf, setColl]
    · intro t2 ht2 hne
      rcases htype with h | h | h <;> subst h <;>
        rcases ht2 with g | g | g <;> subst g <;>
          first
          | exact absurd rfl hne
          | simp [collOf, setColl]
    · exact getA_setA_self pid _ _

/-- Witness for C7: a two-fish inventory; an out-of-range removal at index 5
fails and a follow-up read returns the unchanged inventory. -/
theorem C7_remove_item_witness :
    getA "p" (remove_item [("p", ⟨"p", [⟨"cod", 1, []⟩, ⟨"eel", 2, []⟩], [], [], 0, none⟩)]
        "p" "fish" 5 9).2 =
      some ⟨"p", [⟨"cod", 1, []⟩, ⟨"eel", 2, []⟩], [], [], 0, none⟩ :=
  ((C7_remove_item [("p", ⟨"p", [⟨"cod", 1, []⟩, ⟨"eel", 2, []⟩], [], [], 0, none⟩)]
      "p" "fish" 5 9 ⟨"p", [⟨"cod", 1, []⟩, ⟨"eel", 2, []⟩], [], [], 0, none⟩ rfl
      (Or.inl rfl)).1 (by decide)).2

/-! ### Claim theorem for the leaderboard aggregator -/

instance (m : DBPlayer → Int) : IsTotal DBPlayer (descBy m) :=
  ⟨fun a b => le_total (m b) (m a)⟩

instance (m : DBPlayer → Int) : IsTrans DBPlayer (descBy m) :=
  ⟨fun _ _ _ hab hbc => le_trans hbc hab⟩

/-- The top-N property of one category's query: the returned stream is a
selection `sel` from the stored players (a permutation witness `rest` holds
the others), of length `min limit store.length`, sorted descending by the
category counter, with every selected player's counter at least every
unselected player's. -/
theorem leaderboard_spec (store : List DBPlayer) (m : DBPlayer → Int) (limit : Nat)
    (category : String) (hcat : metricOf category = some m) :
    ∃ sel rest, Player.get_leaderboard store category limit = Except.ok sel ∧
      sel.length = min limit store.length ∧
      List.Perm (sel ++ rest) store ∧
      List.Pairwise (fun a b => m b ≤ m a) sel ∧
      (∀ a ∈ sel, ∀ b ∈ rest, m b ≤ m a) := by
  refine ⟨(List.insertionSort (descBy m) store).take limit,
    (List.insertionSort (descBy m) store).drop limit, ?_, ?_, ?_, ?_, ?_⟩
  · simp only [Player.get_leaderboard, hcat]
  · rw [List.length_take, (List.perm_insertionSort (descBy m) store).length_eq]
  · rw [List.take_append_drop]
    exact List.perm_insertionSort (descBy m) store
  · exact (List.sorted_insertionSort (descBy m) store).sublist
      (List.take_sublist limit _)
  · have hp : List.Pairwise (descBy m)
        ((List.insertionSort (descBy m) store).take limit ++
          (List.insertionSort (descBy m) store).drop limit) := by
      rw [List.take_append_drop]
      exact List.sorted_insertionSort (descBy m) store
    exact fun a ha b hb => (List.pairwise_append.mp hp).2.2 a ha b hb

/-- C9: for each of the three categories (fish count, monster kills, money)
the aggregator returns the top-N players sorted descending by that metric,
each projected at aggregation time to a record of display name, metric value
and display color — the display color being the stored normalized RGB triple
carried over into the projected record (`lbProject`). -/
theorem C9_leaderboard (store : List DBPlayer) (limit : Nat) :
    ∃ lb : CombinedLB, Player.get_combined_leaderboard store limit = Except.ok lb ∧
      (∃ sel rest, List.Perm (sel ++ rest) store ∧
        sel.length = min limit store.length ∧
        lb.fishCount = sel.map (lbProject fun p => p.fishCount) ∧
        List.Pairwise (fun a b : DBPlayer => b.fishCount ≤ a.fishCount) sel ∧
        (∀ a ∈ sel, ∀ b ∈ rest, b.fishCount ≤ a.fishCount)) ∧
      (∃ sel rest, List.Perm (sel ++ rest) store ∧
        sel.length = min limit store.length ∧
        lb.monsterKills = sel.map (lbProject fun p => p.monsterKills) ∧
        List.Pairwise (fun a b : DBPlayer => b.monsterKills ≤ a.monsterKills) sel ∧
        (∀ a ∈ sel, ∀ b ∈ rest, b.monsterKills ≤ a.monsterKills)) ∧
      (∃ sel rest, List.Perm (sel ++ rest) store ∧
        sel.length = min limit store.length ∧
        lb.money = sel.map (lbProject fun p => p.money) ∧
        List.Pairwise (fun a b : DBPlayer => b.money ≤ a.money) sel ∧
        (∀ a ∈ sel, ∀ b ∈ rest, b.money ≤ a.money)) := by
  obtain ⟨selF, restF, hF, hlF, hpF, hsF, hcF⟩ :=
    leaderboard_spec store (fun p => p.fishCount) limit "fishCount" (by simp [metricOf])
  obtain ⟨selK, restK, hK, hlK, hpK, hsK, hcK⟩ :=
    leaderboard_spec store (fun p => p.monsterKills) limit "monsterKills"
      (by simp [metricOf])
  obtain ⟨selM, restM, hM, hlM, hpM, hsM, hcM⟩ :=
    leaderboard_spec store (fun p => p.money) limit "money" (by simp [metricOf])
  refine ⟨⟨selF.map (lbProject fun p => p.fishCount),
    selK.map (lbProject fun p => p.monsterKills),
    selM.map (lbProject fun p => p.money)⟩, ?_,
    ⟨selF, restF, hpF, hlF, rfl, hsF, hcF⟩,
    ⟨selK, restK, hpK, hlK, rfl, hsK, hcK⟩,
    ⟨selM, restM, hpM, hlM, rfl, hsM, hcM⟩⟩
  simp only [Player.get_combined_leaderboard, hF, hK, hM]
  rfl

/-- C4 counterexample: two stored `global` messages with timestamps `10` and
`2` and `limit = 2`.  The indexed path orders numerically
(`10` before `2`, then reverses), while the fallback sorts the *serialized*
timestamps — and lexicographically `"2" > "10"` — so the two paths return
the same messages in opposite final orders, refuting the claimed
equivalence for every message set. -/
theorem C4_fallback_differs :
    get_recent_messages_fallback
        [⟨"a", "m1", 10, "global"⟩, ⟨"b", "m2", 2, "global"⟩] (fun _ => none) 2 "global" ≠
      get_recent_messages_indexed
        [⟨"a", "m1", 10, "global"⟩, ⟨"b", "m2", 2, "global"⟩] (fun _ => none) 2 "global" := by
  decide

theorem orderedInsert_congr {α : Type} (r s : α → α → Prop)
    [DecidableRel r] [DecidableRel s] (a : α) :
    ∀ L : List α, (∀ b ∈ L, (r a b ↔ s a b)) →
      List.orderedInsert r a L = List.orderedInsert s a L := by
  intro L
  induction L with
  | nil => intro _; rfl
  | cons b t ih =>
    intro h
    simp only [List.orderedInsert]
    by_cases hr : r a b
    · rw [if_pos hr, if_pos ((h b (List.mem_cons_self _ _)).mp hr)]
    · rw [if_neg hr, if_neg (fun hs => hr ((h b (List.mem_cons_self _ _)).mpr hs)),
        ih (fun c hc => h c (List.mem_cons_of_mem _ hc))]

theorem insertionSort_congr {α : Type} (r s : α → α → Prop)
    [DecidableRel r] [DecidableRel s] :
    ∀ L : List α, (∀ a ∈ L, ∀ b ∈ L, (r a b ↔ s a b)) →
      List.insertionSort r L = List.insertionSort s L := by
  intro L
  induction L with
  | nil => intro _; rfl
  | cons a t ih =>
    intro h
    simp only [List.insertionSort]
    rw [ih (fun c hc d hd => h c (List.mem_cons_of_mem _ hc) d (List.mem_cons_of_mem _ hd))]
    exact orderedInsert_congr r s a _ (fun b hb =>
      h a (List.mem_cons_self _ _) b
        (List.mem_cons_of_mem _ ((List.perm_insertionSort s t).subset hb)))

theorem orderedInsert_map {α β : Type} (f : α → β) (r : α → α → Prop)
    (s : β → β → Prop) [DecidableRel r] [DecidableRel s]
    (hrs : ∀ a b, (s (f a) (f b) ↔ r a b)) (a : α) :
    ∀ L : List α, List.orderedInsert s (f a) (L.map f) =
      (List.orderedInsert r a L).map f := by
  intro L
  induction L with
  | nil => rfl
  | cons b t ih =>
    simp only [List.map_cons, List.orderedInsert]
    by_cases hr : r a b
    · rw [if_pos ((hrs a b).mpr hr), if_pos hr]
      rfl
    · rw [if_neg (fun hs => hr ((hrs a b).mp hs)), if_neg hr, List.map_cons, ih]

theorem insertionSort_map {α β : Type} (f : α → β) (r : α → α → Prop)
    (s : β → β → Prop) [DecidableRel r] [DecidableRel s]
    (hrs : ∀ a b, (s (f a) (f b) ↔ r a b)) :
    ∀ L : List α, List.insertionSort s (L.map f) = (List.insertionSort r L).map f := by
  intro L
  induction L with
  | nil => rfl
  | cons a t ih =>
    simp only [List.map_cons, List.insertionSort, ih]
    exact orderedInsert_map f r s hrs a _

/-- C4 (amended): the fallback chat-retrieval path yields the same final
ordering as the indexed path on every set of stored messages whose
*serialized* timestamps compare (lexicographically, as Python compares
strings) the same way as the underlying numeric timestamps — equal-width
decimal timestamps in particular.  In general the two paths disagree
(see the counterexample): the fallback sorts the stringified timestamps. -/
theorem C4_fallback_agrees (store : List MsgDoc)
    (senders : String → Option (String × Color)) (limit : Nat) (message_type : String)
    (h : ∀ a ∈ store, ∀ b ∈ store,
      (tsDescStr (msgToDict a) (msgToDict b) ↔ tsDescNum a b)) :
    get_recent_messages_fallback store senders limit message_type =
      get_recent_messages_indexed store senders limit message_type := by
  unfold get_recent_messages_fallback get_recent_messages_indexed
  dsimp only
  have h1 : List.insertionSort tsDescStr
      ((store.filter (fun m => decide (m.message_type = message_type))).map msgToDict) =
      (List.insertionSort
        (fun a b => tsDescStr (msgToDict a) (msgToDict b))
        (store.filter (fun m => decide (m.message_type = message_type)))).map msgToDict :=
    insertionSort_map msgToDict _ tsDescStr (fun _ _ => Iff.rfl) _
  have h2 : List.insertionSort
      (fun a b => tsDescStr (msgToDict a) (msgToDict b))
      (store.filter (fun m => decide (m.message_type = message_type))) =
      List.insertionSort tsDescNum
        (store.filter (fun m => decide (m.message_type = message_type))) :=
    insertionSort_congr _ _ _ (fun a ha b hb =>
      h a (List.mem_of_mem_filter ha) b (List.mem_of_mem_filter hb))
  rw [h1, h2, ← List.map_take]

/-- Witness for the amended C4: two messages with equal-width timestamps
`3` and `7`, on which string order and numeric order agree, so the two
retrieval paths coincide. -/
theorem C4_fallback_agrees_witness :
    get_recent_messages_fallback
        [⟨"a", "m1", 3, "global"⟩, ⟨"b", "m2", 7, "global"⟩] (fun _ => none) 2 "global" =
      get_recent_messages_indexed
        [⟨"a", "m1", 3, "global"⟩, ⟨"b", "m2", 7, "global"⟩] (fun _ => none) 2 "global" :=
  C4_fallback_agrees [⟨"a", "m1", 3, "global"⟩, ⟨"b", "m2", 7, "global"⟩]
    (fun _ => none) 2 "global" (by decide)

end BoatGame
